import Mathlib

/-!
Verification of the desktop-search core: the in-memory inverted index
(`InvertedIndexMemory` in `desktopsearch/backends/memory.py` and the older
`InvertedIndex` in `utils.py`), the preprocessor (`nlp.py`, both the flat
layout revision and the `desktopsearch` package revision), the tokenizer
plugin base (`plugin.py`, `plugins/plaintext.py`) and the incremental
indexer pass.

Python dicts are modelled as insertion-ordered association lists with the
exact semantics of `d[k]`, `d[k] = v`, `del d[k]` and `d.pop(k, None)`.
Machine-level details (floats aside from exact real arithmetic for the
tf-idf score, unicode case tables beyond the ASCII mapping of `str.lower`
and `str.upper`) are modelled with `Nat`, `Real.logb` and Lean's
`String.toLower`/`String.toUpper`.
-/

namespace DesktopSearch

variable {α β : Type} [DecidableEq α]

/-- Python `d.get(k)` / `d[k]`: value of the first entry with key `k`. -/
def dget (k : α) : List (α × β) → Option β
  | [] => none
  | (k', v) :: t => if k' = k then some v else dget k t

/-- Python `d[k] = v`: replace the value in place when the key is present,
otherwise append at the end (insertion order is preserved). -/
def dset (k : α) (v : β) : List (α × β) → List (α × β)
  | [] => [(k, v)]
  | (k', v') :: t => if k' = k then (k, v) :: t else (k', v') :: dset k v t

/-- Python `del d[k]` / `d.pop(k, None)`: drop the first entry with key `k`. -/
def ddel (k : α) : List (α × β) → List (α × β)
  | [] => []
  | (k', v) :: t => if k' = k then t else (k', v) :: ddel k t

/-- Keys of an association list are pairwise distinct (true of any Python dict). -/
abbrev NodupKeys (l : List (α × β)) : Prop := (l.map Prod.fst).Nodup

/-- Helper for `pySplitSpace`: walk the characters, cutting at every single
space, like Python's `str.split(" ")` with an explicit separator. -/
def pySplitSpaceAux : List Char → List Char → List String
  | [], acc => [String.mk acc.reverse]
  | c :: rest, acc =>
    if c = ' ' then String.mk acc.reverse :: pySplitSpaceAux rest []
    else pySplitSpaceAux rest (c :: acc)

/-- Python `text.split(" ")`: split at every single space character; the
empty string yields `[""]` and consecutive spaces yield empty parts. -/
def pySplitSpace (s : String) : List String := pySplitSpaceAux s.data []

/-- Python `str.lower()` restricted to its ASCII action (the tokens at play
are ASCII): lowercase every character. -/
def pyLower (s : String) : String := String.mk (s.data.map Char.toLower)

/-- Python `str.upper()` restricted to its ASCII action. -/
def pyUpper (s : String) : String := String.mk (s.data.map Char.toUpper)

/-- The two index fields: `clear()` creates `self.table` and `self.doc_freqs`
with exactly the keys `"code"` and `"text"`. -/
inductive Field
  | code
  | text
  deriving DecidableEq, Repr, BEq

/-- A posting list: `doc_id -> term_frequency`. -/
abbrev Postings := List (Nat × Nat)

/-- A term-frequency counter: `token -> frequency` (`collections.Counter`). -/
abbrev TokenCounter := List (String × Nat)

/-- The per-field frequency dictionary produced by `TokenizerPlugin.tokenize`:
one counter per configured field (both fields are always present). -/
structure FreqsDict where
  code : TokenCounter
  text : TokenCounter
  deriving DecidableEq, Repr

def FreqsDict.get (fd : FreqsDict) : Field → TokenCounter
  | Field.code => fd.code
  | Field.text => fd.text

/-- State of `InvertedIndexMemory` (`backends/memory.py` 21–57) and of the
older `InvertedIndex` (`utils.py` 84–161): the docs↔ids bimap, the per-field
posting tables and the optional per-document reverse view `doc_freqs`. -/
structure InvIndex where
  keepDocs : Bool
  docs2ids : List (String × Nat)
  ids2docs : List (Nat × Option String)
  tableCode : List (String × Postings)
  tableText : List (String × Postings)
  docFreqsCode : List (Nat × TokenCounter)
  docFreqsText : List (Nat × TokenCounter)
  deriving DecidableEq, Repr

def InvIndex.table (s : InvIndex) : Field → List (String × Postings)
  | Field.code => s.tableCode
  | Field.text => s.tableText

def InvIndex.docFreqs (s : InvIndex) : Field → List (Nat × TokenCounter)
  | Field.code => s.docFreqsCode
  | Field.text => s.docFreqsText

/-- `clear()`: the empty index (`keep_docs` is fixed at construction). -/
def clearIndex (keepDocs : Bool) : InvIndex :=
  ⟨keepDocs, [], [], [], [], [], []⟩

/-- The Python exceptions the index operations can raise: `InvalidDocument`
(a `KeyError` subclass raised explicitly) and a plain `KeyError`. -/
inductive PyErr
  | invalidDocument
  | keyError
  deriving DecidableEq, Repr

/-- `for token, freq in freqs.items(): index[token][doc_id] = freq` where
`index = self.table[name]` is a `defaultdict(dict)`: a missing token gets a
fresh empty posting dict. -/
def addPostings (d : Nat) (freqs : TokenCounter) (tbl : List (String × Postings)) :
    List (String × Postings) :=
  freqs.foldl (fun acc e => dset e.1 (dset d e.2 ((dget e.1 acc).getD [])) acc) tbl

/-- Common tail of `InvertedIndexMemory.add_document_freqs` (77–88) and
`InvertedIndex.add_document` (`utils.py` 182–193) once the `doc_id` is
settled: set `ids2docs[doc_id] = path`, record `doc_freqs[name][doc_id]`
when `keep_docs`, then materialise the postings for both fields. -/
def writeDoc (p : String) (d : Nat) (fd : FreqsDict) (s : InvIndex) : InvIndex :=
  let s1 := { s with ids2docs := dset d (some p) s.ids2docs }
  let s2 := if s1.keepDocs then
      { s1 with docFreqsCode := dset d fd.code s1.docFreqsCode,
                docFreqsText := dset d fd.text s1.docFreqsText }
    else s1
  { s2 with tableCode := addPostings d fd.code s2.tableCode,
            tableText := addPostings d fd.text s2.tableText }

/-- `InvertedIndexMemory.add_document_freqs` (`backends/memory.py` 67–88):
an unknown path is allocated `len(self.docs2ids)`; a known live path is
rejected with `False`; a known tombstoned path reuses its id. The read of
`self.ids2docs[doc_id]` on a missing id would raise `KeyError`. -/
def add_document_freqs (p : String) (fd : FreqsDict) (s : InvIndex) :
    Except PyErr (Bool × InvIndex) :=
  match dget p s.docs2ids with
  | none =>
      let d := s.docs2ids.length
      Except.ok (true, writeDoc p d fd { s with docs2ids := dset p d s.docs2ids })
  | some d =>
      match dget d s.ids2docs with
      | none => Except.error PyErr.keyError
      | some (some _) => Except.ok (false, s)
      | some none => Except.ok (true, writeDoc p d fd s)

/-- `for token, _freq in field_freqs[doc_id].items(): del index[token][doc_id]`
(the `keep_docs` branch of `remove_document`): `index[token]` goes through the
`defaultdict` (a missing token yields an empty dict), and `del` of a missing
`doc_id` raises `KeyError`. -/
def delPostings (d : Nat) (m : TokenCounter) (tbl : List (String × Postings)) :
    Except PyErr (List (String × Postings)) :=
  match m with
  | [] => Except.ok tbl
  | e :: rest =>
      let pl := (dget e.1 tbl).getD []
      match dget d pl with
      | none => Except.error PyErr.keyError
      | some _ => delPostings d rest (dset e.1 (ddel d pl) tbl)

/-- `freqs.pop(doc_id, None)` over every posting list of a field (the
`keep_docs=False` branch of `remove_document`). -/
def popPostings (d : Nat) (tbl : List (String × Postings)) : List (String × Postings) :=
  tbl.map fun e => (e.1, ddel d e.2)

/-- `remove_document` (`backends/memory.py` 90–111, identical in `utils.py`
195–218): `InvalidDocument` when the path has no id; otherwise tombstone
`ids2docs[doc_id]` and erase the document's postings, by the `doc_freqs`
reverse view when `keep_docs` (fields iterated in insertion order: code then
text) and by a full scan otherwise. An `Except.error` models a raised Python
exception aborting the call; no claim observes the partially mutated state. -/
def remove_document (p : String) (s : InvIndex) : Except PyErr InvIndex :=
  match dget p s.docs2ids with
  | none => Except.error PyErr.invalidDocument
  | some d =>
      let s1 := { s with ids2docs := dset d none s.ids2docs }
      if s1.keepDocs then
        match dget d s1.docFreqsCode with
        | none => Except.error PyErr.keyError
        | some mc =>
            match delPostings d mc s1.tableCode with
            | Except.error e => Except.error e
            | Except.ok tc =>
                match dget d s1.docFreqsText with
                | none => Except.error PyErr.keyError
                | some mt =>
                    match delPostings d mt s1.tableText with
                    | Except.error e => Except.error e
                    | Except.ok tt => Except.ok { s1 with tableCode := tc, tableText := tt }
      else
        Except.ok { s1 with tableCode := popPostings d s1.tableCode,
                            tableText := popPostings d s1.tableText }

/-- `InvertedIndexMemory.add_document` (59–65): run the analyzer — `none`
models `NotAnalyzable`, caught and turned into `False` — then forward to
`add_document_freqs`. -/
def add_document (analyze : String → Option FreqsDict) (p : String) (s : InvIndex) :
    Except PyErr (Bool × InvIndex) :=
  match analyze p with
  | none => Except.ok (false, s)
  | some fd => add_document_freqs p fd s

/-- `IndexerMemory.update_document` (283–285): `remove_document` then
`add_document`. -/
def update_document (analyze : String → Option FreqsDict) (p : String) (s : InvIndex) :
    Except PyErr (Bool × InvIndex) :=
  (remove_document p s).bind (add_document analyze p)

/-- `InvertedIndexMemory.get_docs` (113–114): `self.table[field].get(token, {})`;
no case folding and no insertion. -/
def get_docs (s : InvIndex) (f : Field) (t : String) : Postings :=
  (dget t (s.table f)).getD []

/-- Per-field preprocessor configuration (§6): `tokenize`, `case-sensitive`,
and `lemmatize` (absent keys read through `config.get("lemmatize", False)`
are the default `false`). -/
structure FieldConfig where
  tokenize : Bool
  caseSensitive : Bool
  lemmatize : Bool := false
  deriving DecidableEq, Repr

/-- The two-field preprocessor configuration. -/
structure Config where
  code : FieldConfig
  text : FieldConfig
  deriving DecidableEq, Repr

def Config.get (cfg : Config) : Field → FieldConfig
  | Field.code => cfg.code
  | Field.text => cfg.text

/-- `InvertedIndex.get_docs` (`utils.py` 220–225): when the field's config is
case-insensitive the token is lowercased before the lookup. -/
def get_docs_config (cfg : Config) (s : InvIndex) (f : Field) (t : String) : Postings :=
  get_docs s f (if (cfg.get f).caseSensitive then t else pyLower t)

/-- `num_docs = len(self.table[field])`: the number of distinct tokens of the
field, which is what both `get_paths` implementations feed into the idf. -/
def numTokens (s : InvIndex) (f : Field) : Nat := (s.table f).length

/-- `self.ids2docs[doc_id]` for a posting's id (always allocated, so the
missing-key `KeyError` is unreachable and folded into the tombstone value). -/
def pathOf (s : InvIndex) (d : Nat) : Option String :=
  (dget d s.ids2docs).getD none

/-- `InvertedIndexMemory.get_paths` with `scoring="tfidf"` (130–137): for each
posting `(doc_id, tf)` of the token yield
`(ids2docs[doc_id], tf * log10(num_docs / len(docs)))` where
`num_docs = len(self.table[field])`; an empty posting dict yields the empty
sequence (the unbound `inv_doc_freq` is never read). -/
noncomputable def get_paths_tfidf (s : InvIndex) (f : Field) (t : String) :
    List (Option String × ℝ) :=
  let docs := get_docs s f t
  docs.map fun e =>
    (pathOf s e.1, (e.2 : ℝ) * Real.logb 10 ((numTokens s f : ℝ) / (docs.length : ℝ)))

/-- A spacy token: surface form `text` and lemma `lemma_`. The pipeline
itself is opaque and passed as a function `String → List SpacyTok`. -/
structure SpacyTok where
  text : String
  lemma_ : String
  deriving DecidableEq, Repr

/-- spacy's `tok.lower_`: the lowercase of the surface form. -/
def SpacyTok.lower (tok : SpacyTok) : String := pyLower tok.text

/-- `str2lower` (`nlp.py` 8–9). -/
def str2lower (s : String) : String := pyLower s

/-- `DEFAULT_CONFIG` (`nlp.py` 12–22). -/
def DEFAULT_CONFIG : Config :=
  { code := { tokenize := false, caseSensitive := true }
    text := { tokenize := true, caseSensitive := false, lemmatize := true } }

/-- The spec's constraint on a field config: when `tokenize` is off,
`lemmatize` must be off (the code asserts this; violating it is a
programming error, so it is a precondition here, not a modelled exception). -/
def WfConfig (c : FieldConfig) : Prop := c.tokenize = false → c.lemmatize = false

/-- `Preprocess.text` of the flat-layout `nlp.py` (31–50): spacy projection
when `tokenize`, otherwise `text.split(" ")` (which yields `[""]` on the
empty string) with an optional per-token case fold. -/
def preprocess_text_v1 (nlpFn : String → List SpacyTok) (c : FieldConfig)
    (s : String) : List String :=
  if c.tokenize then
    let doc := nlpFn s
    if c.caseSensitive then
      if c.lemmatize then doc.map SpacyTok.lemma_ else doc.map SpacyTok.text
    else
      if c.lemmatize then doc.map (fun tok => pyLower tok.lemma_)
      else doc.map SpacyTok.lower
  else
    let tokens := pySplitSpace s
    if c.caseSensitive then tokens else tokens.map str2lower

/-- `Preprocess.text` of `desktopsearch/nlp.py` (30–54): identical except
that the empty string short-circuits to `[]` and the case fold is applied to
the whole text before splitting. -/
def preprocess_text_v2 (nlpFn : String → List SpacyTok) (c : FieldConfig)
    (s : String) : List String :=
  if s = "" then []
  else if c.tokenize then
    let doc := nlpFn s
    if c.caseSensitive then
      if c.lemmatize then doc.map SpacyTok.lemma_ else doc.map SpacyTok.text
    else
      if c.lemmatize then doc.map (fun tok => pyLower tok.lemma_)
      else doc.map SpacyTok.lower
  else
    let s' := if c.caseSensitive then s else str2lower s
    pySplitSpace s'

/-- `Counter` increment for one element. -/
def counterAdd (c : TokenCounter) (t : String) : TokenCounter :=
  match dget t c with
  | none => c ++ [(t, 1)]
  | some n => dset t (n + 1) c

/-- `Counter.update(iterable)`: count every element of the list. -/
def counterUpdate (c : TokenCounter) (ts : List String) : TokenCounter :=
  ts.foldl counterAdd c

/-- `Preprocess.batch` of the flat-layout `nlp.py` (52–75): `nlp.pipe(texts)`
is modelled as mapping `nlpFn` over the texts; in the non-tokenize branch the
counter is updated with the (optionally lowercased) texts themselves, without
splitting. -/
def preprocess_batch_v1 (nlpFn : String → List SpacyTok) (c : FieldConfig)
    (texts : List String) (freqs : TokenCounter) : TokenCounter :=
  if c.tokenize then
    if c.caseSensitive then
      if c.lemmatize then
        texts.foldl (fun fr s => counterUpdate fr ((nlpFn s).map SpacyTok.lemma_)) freqs
      else
        texts.foldl (fun fr s => counterUpdate fr ((nlpFn s).map SpacyTok.text)) freqs
    else
      if c.lemmatize then
        texts.foldl (fun fr s => counterUpdate fr ((nlpFn s).map (fun tok => pyLower tok.lemma_))) freqs
      else
        texts.foldl (fun fr s => counterUpdate fr ((nlpFn s).map SpacyTok.lower)) freqs
  else
    if c.caseSensitive then counterUpdate freqs texts
    else counterUpdate freqs (texts.map str2lower)

/-- `Preprocess.batch` of `desktopsearch/nlp.py` (56–88): the non-tokenize
branch now skips empty texts and splits each text on a single space before
counting. -/
def preprocess_batch_v2 (nlpFn : String → List SpacyTok) (c : FieldConfig)
    (texts : List String) (freqs : TokenCounter) : TokenCounter :=
  if c.tokenize then
    if c.caseSensitive then
      if c.lemmatize then
        texts.foldl (fun fr s => counterUpdate fr ((nlpFn s).map SpacyTok.lemma_)) freqs
      else
        texts.foldl (fun fr s => counterUpdate fr ((nlpFn s).map SpacyTok.text)) freqs
    else
      if c.lemmatize then
        texts.foldl (fun fr s => counterUpdate fr ((nlpFn s).map (fun tok => pyLower tok.lemma_))) freqs
      else
        texts.foldl (fun fr s => counterUpdate fr ((nlpFn s).map SpacyTok.lower)) freqs
  else
    if c.caseSensitive then
      texts.foldl (fun fr s => if s = "" then fr else counterUpdate fr (pySplitSpace s)) freqs
    else
      texts.foldl (fun fr s => if s = "" then fr else counterUpdate fr (pySplitSpace (str2lower s))) freqs

/-- The error categories a `_tokenize` run can raise: `ValueError` (the one
the plaintext plugin registers) and any unregistered exception type. -/
inductive ExcType
  | valueError
  | otherError
  deriving DecidableEq, Repr

/-- Result of running the `_tokenize` generator: the `(field, token)` pairs
yielded before it finished, and the exception it raised, if any. -/
structure RawLex where
  pairs : List (Field × String)
  exc : Option ExcType
  deriving DecidableEq, Repr

/-- A tokenizer plugin: its registered `exceptions` mapping (only the error
categories matter here) and its raw lexer `_tokenize`. -/
structure Plugin where
  exceptions : List ExcType
  lex : String → RawLex

/-- `TokenizerPlugin.tokenize` (`plugin.py` 34–58): collect the raw pairs —
an exception registered in `exceptions` is swallowed with a warning and the
file contributes whatever was yielded before it; an unregistered one is
re-raised — then feed each configured field's token list through
`Preprocess.batch` (flat-layout revision) into a fresh counter. -/
def Plugin.tokenize (plug : Plugin) (nlpFn : String → List SpacyTok) (cfg : Config)
    (p : String) : Except ExcType FreqsDict :=
  let raw := plug.lex p
  let freqs : FreqsDict :=
    { code := preprocess_batch_v1 nlpFn cfg.code
        ((raw.pairs.filter (fun e => e.1 == Field.code)).map Prod.snd) []
      text := preprocess_batch_v1 nlpFn cfg.text
        ((raw.pairs.filter (fun e => e.1 == Field.text)).map Prod.snd) [] }
  match raw.exc with
  | some e => if e ∈ plug.exceptions then Except.ok freqs else Except.error e
  | none => Except.ok freqs

/-- The filesystem as the plaintext plugin sees it: `stat().st_size` and the
decoded file content. -/
structure FileSys where
  size : String → Nat
  content : String → String

/-- `PlaintextPlugin.maxfilesize` (`plugins/plaintext.py` 14). -/
def maxfilesize : Nat := 1000000

/-- `PlaintextPlugin._tokenize` (20–27): raise `ValueError` above the size
limit, otherwise yield the whole file content as a single `text` token. -/
def plaintextLex (fs : FileSys) (p : String) : RawLex :=
  if fs.size p > maxfilesize then ⟨[], some ExcType.valueError⟩
  else ⟨[(Field.text, fs.content p)], none⟩

/-- `PlaintextPlugin` (11–27): registers `ValueError` in `exceptions`. -/
def PlaintextPlugin (fs : FileSys) : Plugin :=
  ⟨[ExcType.valueError], plaintextLex fs⟩

/-- Running state of one `_index` pass over the candidate files. -/
structure PassSt where
  inv : InvIndex
  mtimes : List (String × Nat)
  touched : List String
  added : Nat
  removed : Nat
  updated : Nat

/-- Modelled from the spec: the *add* dispatch of §4.5 step 5 — record the
file's mtime, call `add_document`, and count it as added only if the index
reports success (`IndexerBase._index` lives in `desktopsearch/utils.py`,
which is not among the sources). -/
def indexAdd (analyze : String → Option FreqsDict) (st : PassSt) (p : String)
    (m : Nat) : Except PyErr PassSt :=
  match add_document analyze p st.inv with
  | Except.error e => Except.error e
  | Except.ok (ok, inv') =>
      Except.ok { st with inv := inv', mtimes := dset p m st.mtimes,
                          added := if ok then st.added + 1 else st.added }

/-- Modelled from the spec: §4.5 steps 4–5 for a single surviving candidate
file of a pass (`IndexerBase._index` is not among the sources). In a partial
pass the file is recorded as touched; an unseen file is an *add*, an
unchanged mtime is a no-op, a changed mtime attempts an *update* — an
`InvalidDocument` from the removal step downgrades it to an *add*, a
successful re-add counts as updated, a failed re-add counts as removed. In a
full pass every file is an *add*. -/
def indexStep (analyze : String → Option FreqsDict) (incremental : Bool)
    (st0 : PassSt) (file : String × Nat) : Except PyErr PassSt :=
  let st := if incremental then { st0 with touched := st0.touched ++ [file.1] } else st0
  if incremental then
    match dget file.1 st.mtimes with
    | none => indexAdd analyze st file.1 file.2
    | some old =>
        if old = file.2 then Except.ok st
        else
          match remove_document file.1 st.inv with
          | Except.error PyErr.invalidDocument => indexAdd analyze st file.1 file.2
          | Except.error e => Except.error e
          | Except.ok inv1 =>
              match add_document analyze file.1 inv1 with
              | Except.error e => Except.error e
              | Except.ok (true, inv2) =>
                  Except.ok { st with inv := inv2, mtimes := dset file.1 file.2 st.mtimes,
                                      updated := st.updated + 1 }
              | Except.ok (false, inv2) =>
                  Except.ok { st with inv := inv2, mtimes := dset file.1 file.2 st.mtimes,
                                      removed := st.removed + 1 }
  else indexAdd analyze st file.1 file.2

/-- Modelled from the spec: the end-of-pass removals of §4.5 step 5 — each
stale file (`mtimes.keys() - touched`) is removed from the index and from
`mtimes`, incrementing `removed`. -/
def removeStale (stale : List String) (st : PassSt) : Except PyErr PassSt :=
  match stale with
  | [] => Except.ok st
  | p :: rest =>
      match remove_document p st.inv with
      | Except.error e => Except.error e
      | Except.ok inv' =>
          removeStale rest { st with inv := inv', mtimes := ddel p st.mtimes,
                                     removed := st.removed + 1 }

/-- Modelled from the spec: `IndexerBase._index` (§4.5), which
`IndexerMemory.index` (`backends/memory.py` 256–275) invokes after its
config-coherence step and whose annotated return type is the triple
`(added, removed, updated)`. Traversal, `.gitignore` composition and the
suffix filter are abstracted into the given candidate list of
`(path, mtime_ns)` pairs; a full pass first clears the index and resets
`mtimes`. -/
def index_pass (analyze : String → Option FreqsDict) (incremental : Bool)
    (files : List (String × Nat)) (inv : InvIndex) (mtimes : List (String × Nat)) :
    Except PyErr (InvIndex × List (String × Nat) × Nat × Nat × Nat) :=
  let st0 : PassSt :=
    if incremental then ⟨inv, mtimes, [], 0, 0, 0⟩
    else ⟨clearIndex inv.keepDocs, [], [], 0, 0, 0⟩
  match files.foldlM (indexStep analyze incremental) st0 with
  | Except.error e => Except.error e
  | Except.ok st =>
      if incremental then
        let stale := (st.mtimes.map Prod.fst).filter (fun q => !(st.touched.contains q))
        match removeStale stale st with
        | Except.error e => Except.error e
        | Except.ok st' => Except.ok (st'.inv, st'.mtimes, st'.added, st'.removed, st'.updated)
      else Except.ok (st.inv, st.mtimes, st.added, st.removed, st.updated)

/-- Well-formed per-field frequency dictionary: genuine Python dicts have
pairwise-distinct keys. -/
abbrev WfFreqs (fd : FreqsDict) : Prop := NodupKeys fd.code ∧ NodupKeys fd.text

/-- The data invariant of the index, maintained by `clear`,
`add_document_freqs`, `remove_document` and `update_document`. -/
structure Wf (s : InvIndex) : Prop where
  idsSmall : ∀ p d, dget p s.docs2ids = some d → d < s.docs2ids.length
  idsInj : ∀ p q d, dget p s.docs2ids = some d → dget q s.docs2ids = some d → p = q
  postingLive : ∀ f t pl d v, dget t (s.table f) = some pl → dget d pl = some v →
    ∃ p, dget d s.ids2docs = some (some p) ∧ dget p s.docs2ids = some d
  plNodup : ∀ f t pl, dget t (s.table f) = some pl → NodupKeys pl
  dfNodup : s.keepDocs = true → ∀ f d m, dget d (s.docFreqs f) = some m → NodupKeys m
  tableSubDF : s.keepDocs = true → ∀ f t pl d v, dget t (s.table f) = some pl →
    dget d pl = some v → ∃ m, dget d (s.docFreqs f) = some m ∧ dget t m = some v
  dfLiveSub : s.keepDocs = true → ∀ f d m t v, dget d (s.docFreqs f) = some m →
    dget t m = some v → (∃ p, dget d s.ids2docs = some (some p)) →
    ∃ pl, dget t (s.table f) = some pl ∧ dget d pl = some v
  allocDF : s.keepDocs = true → ∀ p d, dget p s.docs2ids = some d →
    ∀ f, ∃ m, dget d (s.docFreqs f) = some m

/-- Index states reachable from `clear()` by completed mutating operations
(`update_document` is the composition of the two constructors). -/
inductive Reachable : InvIndex → Prop
  | empty (kd : Bool) : Reachable (clearIndex kd)
  | add {s : InvIndex} (p : String) (fd : FreqsDict) {b : Bool} {s' : InvIndex} :
      Reachable s → WfFreqs fd → add_document_freqs p fd s = Except.ok (b, s') →
      Reachable s'
  | remove {s : InvIndex} (p : String) {s' : InvIndex} :
      Reachable s → remove_document p s = Except.ok s' → Reachable s'

deriving instance DecidableEq for Except

/-- Example frequency dictionary used by the concrete witnesses. -/
def fdX : FreqsDict := ⟨[("x", 2)], [("hello", 1)]⟩

/-- The index reached from `clear()` with `keep_docs=True` by adding `a.py`
with the frequencies `fdX`. -/
def s1ex : InvIndex :=
  ⟨true, [("a.py", 0)], [(0, some "a.py")], [("x", [(0, 2)])], [("hello", [(0, 1)])],
    [(0, [("x", 2)])], [(0, [("hello", 1)])]⟩

/-- `s1ex` after `remove_document("a.py")`: the id is tombstoned, the posting
lists are emptied, and the stale `doc_freqs` entries remain. -/
def s2ex : InvIndex :=
  ⟨true, [("a.py", 0)], [(0, none)], [("x", [])], [("hello", [])],
    [(0, [("x", 2)])], [(0, [("hello", 1)])]⟩

/-- The `keep_docs=False` analogue of `s1ex`. -/
def s1fex : InvIndex :=
  ⟨false, [("a.py", 0)], [(0, some "a.py")], [("x", [(0, 2)])], [("hello", [(0, 1)])],
    [], []⟩

/-- `s1fex` after `remove_document("a.py")`. -/
def s2fex : InvIndex :=
  ⟨false, [("a.py", 0)], [(0, none)], [("x", [])], [("hello", [])], [], []⟩

/-- A one-document index whose code field holds the lowercase token `foo`. -/
def s7ex : InvIndex :=
  ⟨true, [("a.py", 0)], [(0, some "a.py")], [("foo", [(0, 1)])], [],
    [(0, [("foo", 1)])], [(0, [])]⟩

/-- A configuration whose fields are case-insensitive and do not tokenize. -/
def cfg7 : Config :=
  ⟨{ tokenize := false, caseSensitive := false },
    { tokenize := false, caseSensitive := false }⟩

/-- A one-document index whose code field holds two distinct tokens, so the
number of documents (1) differs from `len(table["code"])` (2). -/
def s4ex : InvIndex :=
  ⟨true, [("a.py", 0)], [(0, some "a.py")], [("x", [(0, 1)]), ("y", [(0, 1)])], [],
    [(0, [("x", 1), ("y", 1)])], [(0, [])]⟩

/-- A concrete analyzer for the indexer scenario: every path is analyzable
and contributes its own name as a single code token. -/
def anl3 : String → Option FreqsDict := fun p => some ⟨[(p, 1)], []⟩

/-- The index produced by a full pass of `anl3` over files `a`, `b`, `c`. -/
def inv3ex : InvIndex :=
  ⟨true, [("a", 0), ("b", 1), ("c", 2)],
    [(0, some "a"), (1, some "b"), (2, some "c")],
    [("a", [(0, 1)]), ("b", [(1, 1)]), ("c", [(2, 1)])], [],
    [(0, [("a", 1)]), (1, [("b", 1)]), (2, [("c", 1)])],
    [(0, []), (1, []), (2, [])]⟩

/-- The `mtimes` map after that full pass. -/
def mt3ex : List (String × Nat) := [("a", 1), ("b", 1), ("c", 1)]

/-- The index after the subsequent incremental pass in which `b` has a new
mtime and `c` has disappeared: `b` is re-added under its old id and `c` is
tombstoned. -/
def inv3ex2 : InvIndex :=
  ⟨true, [("a", 0), ("b", 1), ("c", 2)],
    [(0, some "a"), (1, some "b"), (2, none)],
    [("a", [(0, 1)]), ("b", [(1, 1)]), ("c", [])], [],
    [(0, [("a", 1)]), (1, [("b", 1)]), (2, [("c", 1)])],
    [(0, []), (1, []), (2, [])]⟩

/-- A filesystem with a single two-megabyte file, over the plaintext size
limit. -/
def fs10 : FileSys := ⟨fun _ => 2000000, fun _ => ""⟩

@[simp] theorem dget_nil (k : α) : dget k ([] : List (α × β)) = none := rfl

@[simp] theorem dget_cons (k a : α) (b : β) (t : List (α × β)) :
    dget k ((a, b) :: t) = if a = k then some b else dget k t := rfl

@[simp] theorem dset_nil (k : α) (v : β) : dset k v ([] : List (α × β)) = [(k, v)] := rfl

@[simp] theorem dset_cons (k a : α) (v b : β) (t : List (α × β)) :
    dset k v ((a, b) :: t) = if a = k then (k, v) :: t else (a, b) :: dset k v t := rfl

@[simp] theorem ddel_nil (k : α) : ddel k ([] : List (α × β)) = [] := rfl

@[simp] theorem ddel_cons (k a : α) (b : β) (t : List (α × β)) :
    ddel k ((a, b) :: t) = if a = k then t else (a, b) :: ddel k t := rfl

theorem dget_dset_self (k : α) (v : β) (l : List (α × β)) :
    dget k (dset k v l) = some v := by
  induction l with
  | nil => simp
  | cons hd t ih =>
    obtain ⟨a, b⟩ := hd
    by_cases ha : a = k <;> simp [ha, ih]

theorem dget_dset_ne (k k' : α) (v : β) (l : List (α × β)) (h : k' ≠ k) :
    dget k' (dset k v l) = dget k' l := by
  have hne : k ≠ k' := fun he => h he.symm
  induction l with
  | nil => simp [hne]
  | cons hd t ih =>
    obtain ⟨a, b⟩ := hd
    by_cases ha : a = k
    · subst ha
      simp [hne]
    · by_cases ha' : a = k' <;> simp [h, ha, ha', ih]

theorem dget_ddel_ne (k k' : α) (l : List (α × β)) (h : k' ≠ k) :
    dget k' (ddel k l) = dget k' l := by
  have hne : k ≠ k' := fun he => h he.symm
  induction l with
  | nil => simp
  | cons hd t ih =>
    obtain ⟨a, b⟩ := hd
    by_cases ha : a = k
    · subst ha
      simp [hne]
    · by_cases ha' : a = k' <;> simp [h, ha, ha', ih]

theorem dget_eq_none_of_not_mem (k : α) (l : List (α × β))
    (h : k ∉ l.map Prod.fst) : dget k l = none := by
  induction l with
  | nil => rfl
  | cons hd t ih =>
    obtain ⟨a, b⟩ := hd
    simp only [List.map_cons, List.mem_cons] at h
    push_neg at h
    rw [dget_cons, if_neg (fun he => h.1 he.symm)]
    exact ih h.2

theorem dget_mem {k : α} {v : β} {l : List (α × β)} (h : dget k l = some v) :
    (k, v) ∈ l := by
  induction l with
  | nil => simp [dget] at h
  | cons hd t ih =>
    obtain ⟨a, b⟩ := hd
    rw [dget_cons] at h
    by_cases ha : a = k
    · rw [if_pos ha] at h
      subst ha
      injection h with h
      subst h
      exact List.mem_cons_self _ _
    · rw [if_neg ha] at h
      exact List.mem_cons_of_mem _ (ih h)

theorem dget_ddel_self (k : α) (l : List (α × β)) (h : NodupKeys l) :
    dget k (ddel k l) = none := by
  induction l with
  | nil => simp
  | cons hd t ih =>
    obtain ⟨a, b⟩ := hd
    unfold NodupKeys at h
    simp only [List.map_cons, List.nodup_cons] at h
    by_cases ha : a = k
    · subst ha
      rw [ddel_cons, if_pos rfl]
      exact dget_eq_none_of_not_mem _ _ h.1
    · rw [ddel_cons, if_neg ha, dget_cons, if_neg ha]
      exact ih h.2

theorem mem_dset {k : α} {v : β} {e : α × β} {l : List (α × β)}
    (h : e ∈ dset k v l) : (e.1 = k ∧ e.2 = v) ∨ e ∈ l := by
  induction l with
  | nil =>
    simp only [dset_nil, List.mem_singleton] at h
    exact Or.inl (by simp [h])
  | cons hd t ih =>
    obtain ⟨a, b⟩ := hd
    by_cases ha : a = k
    · rw [dset_cons, if_pos ha] at h
      rcases List.mem_cons.mp h with he | hm
      · exact Or.inl (by simp [he])
      · exact Or.inr (List.mem_cons_of_mem _ hm)
    · rw [dset_cons, if_neg ha] at h
      rcases List.mem_cons.mp h with he | hm
      · exact Or.inr (by simp [he])
      · rcases ih hm with h1 | h2
        · exact Or.inl h1
        · exact Or.inr (List.mem_cons_of_mem _ h2)

theorem mem_of_mem_ddel {k : α} {e : α × β} {l : List (α × β)}
    (h : e ∈ ddel k l) : e ∈ l := by
  induction l with
  | nil => simp at h
  | cons hd t ih =>
    obtain ⟨a, b⟩ := hd
    by_cases ha : a = k
    · rw [ddel_cons, if_pos ha] at h
      exact List.mem_cons_of_mem _ h
    · rw [ddel_cons, if_neg ha] at h
      rcases List.mem_cons.mp h with he | hm
      · exact he ▸ List.mem_cons_self _ _
      · exact List.mem_cons_of_mem _ (ih hm)

theorem nodupKeys_dset (k : α) (v : β) (l : List (α × β)) (h : NodupKeys l) :
    NodupKeys (dset k v l) := by
  induction l with
  | nil => simp [NodupKeys]
  | cons hd t ih =>
    obtain ⟨a, b⟩ := hd
    unfold NodupKeys at h ⊢
    simp only [List.map_cons, List.nodup_cons] at h
    by_cases ha : a = k
    · subst ha
      simpa [List.nodup_cons] using h
    · rw [dset_cons, if_neg ha]
      simp only [List.map_cons, List.nodup_cons]
      refine ⟨?_, ih h.2⟩
      intro hmem
      rcases List.mem_map.mp hmem with ⟨⟨x, y⟩, hx, hxa⟩
      rcases mem_dset hx with he | hm
      · exact ha (hxa ▸ he.1)
      · exact h.1 (hxa ▸ List.mem_map.mpr ⟨(x, y), hm, rfl⟩)

theorem nodupKeys_ddel (k : α) (l : List (α × β)) (h : NodupKeys l) :
    NodupKeys (ddel k l) := by
  induction l with
  | nil => simp [NodupKeys]
  | cons hd t ih =>
    obtain ⟨a, b⟩ := hd
    unfold NodupKeys at h ⊢
    simp only [List.map_cons, List.nodup_cons] at h
    by_cases ha : a = k
    · subst ha
      rw [ddel_cons, if_pos rfl]
      exact h.2
    · rw [ddel_cons, if_neg ha]
      simp only [List.map_cons, List.nodup_cons]
      refine ⟨?_, ih h.2⟩
      intro hmem
      rcases List.mem_map.mp hmem with ⟨⟨x, y⟩, hx, hxa⟩
      exact h.1 (hxa ▸ List.mem_map.mpr ⟨(x, y), mem_of_mem_ddel hx, rfl⟩)

theorem length_dset_of_not_mem (k : α) (v : β) (l : List (α × β))
    (h : dget k l = none) : (dset k v l).length = l.length + 1 := by
  induction l with
  | nil => simp
  | cons hd t ih =>
    obtain ⟨a, b⟩ := hd
    rw [dget_cons] at h
    by_cases ha : a = k
    · rw [if_pos ha] at h
      cases h
    · rw [if_neg ha] at h
      rw [dset_cons, if_neg ha]
      simp [ih h]

theorem dget_isSome_of_mem {k : α} {v : β} {l : List (α × β)}
    (h : (k, v) ∈ l) : ∃ w, dget k l = some w := by
  induction l with
  | nil => simp at h
  | cons hd t ih =>
    obtain ⟨a, b⟩ := hd
    by_cases ha : a = k
    · exact ⟨b, by rw [dget_cons, if_pos ha]⟩
    · rcases List.mem_cons.mp h with he | hm
      · exact absurd (congrArg Prod.fst he).symm ha
      · rcases ih hm with ⟨w, hw⟩
        exact ⟨w, by rw [dget_cons, if_neg ha]; exact hw⟩

@[simp] theorem addPostings_nil (d : Nat) (tbl : List (String × Postings)) :
    addPostings d [] tbl = tbl := rfl

theorem addPostings_cons (d : Nat) (e : String × Nat) (rest : TokenCounter)
    (tbl : List (String × Postings)) :
    addPostings d (e :: rest) tbl =
      addPostings d rest (dset e.1 (dset d e.2 ((dget e.1 tbl).getD [])) tbl) := rfl

theorem addPostings_get_not_mem (d : Nat) (fr : TokenCounter)
    (tbl : List (String × Postings)) (t : String) (h : dget t fr = none) :
    dget t (addPostings d fr tbl) = dget t tbl := by
  induction fr generalizing tbl with
  | nil => simp
  | cons e rest ih =>
    obtain ⟨a, w⟩ := e
    rw [dget_cons] at h
    by_cases ha : a = t
    · rw [if_pos ha] at h
      cases h
    · rw [if_neg ha] at h
      rw [addPostings_cons, ih _ h, dget_dset_ne _ _ _ _ (fun he => ha he.symm)]

theorem addPostings_get_mem (d : Nat) (fr : TokenCounter)
    (tbl : List (String × Postings)) (t : String) (v : Nat)
    (hnd : NodupKeys fr) (h : dget t fr = some v) :
    dget t (addPostings d fr tbl) = some (dset d v ((dget t tbl).getD [])) := by
  induction fr generalizing tbl with
  | nil => simp at h
  | cons e rest ih =>
    obtain ⟨a, w⟩ := e
    unfold NodupKeys at hnd
    simp only [List.map_cons, List.nodup_cons] at hnd
    rw [dget_cons] at h
    by_cases ha : a = t
    · rw [if_pos ha] at h
      injection h with h
      subst h
      subst ha
      rw [addPostings_cons]
      have hrest : dget a rest = none :=
        dget_eq_none_of_not_mem _ _ hnd.1
      rw [addPostings_get_not_mem _ _ _ _ hrest]
      simp [dget_dset_self]
    · rw [if_neg ha] at h
      rw [addPostings_cons, ih _ hnd.2 h,
        dget_dset_ne _ _ _ _ (fun he => ha he.symm)]

theorem delPostings_get_not_mem (d : Nat) (m : TokenCounter)
    (tbl tbl' : List (String × Postings)) (t : String)
    (h : delPostings d m tbl = Except.ok tbl') (hv : dget t m = none) :
    dget t tbl' = dget t tbl := by
  induction m generalizing tbl with
  | nil =>
    simp only [delPostings] at h
    injection h with h
    rw [h]
  | cons e rest ih =>
    obtain ⟨a, w⟩ := e
    rw [dget_cons] at hv
    by_cases ha : a = t
    · rw [if_pos ha] at hv
      cases hv
    · rw [if_neg ha] at hv
      simp only [delPostings] at h
      cases hdd : dget d ((dget a tbl).getD []) with
      | none => rw [hdd] at h; cases h
      | some u =>
        rw [hdd] at h
        rw [ih _ h hv, dget_dset_ne _ _ _ _ (fun he => ha he.symm)]

theorem delPostings_get_mem (d : Nat) (m : TokenCounter)
    (tbl tbl' : List (String × Postings)) (t : String) (v : Nat)
    (hnd : NodupKeys m) (h : delPostings d m tbl = Except.ok tbl')
    (hv : dget t m = some v) :
    dget t tbl' = some (ddel d ((dget t tbl).getD [])) := by
  induction m generalizing tbl with
  | nil => simp at hv
  | cons e rest ih =>
    obtain ⟨a, w⟩ := e
    unfold NodupKeys at hnd
    simp only [List.map_cons, List.nodup_cons] at hnd
    rw [dget_cons] at hv
    simp only [delPostings] at h
    by_cases ha : a = t
    · subst ha
      rw [if_pos rfl] at hv
      cases hdd : dget d ((dget a tbl).getD []) with
      | none => rw [hdd] at h; cases h
      | some u =>
        rw [hdd] at h
        have hrest : dget a rest = none := dget_eq_none_of_not_mem _ _ hnd.1
        rw [delPostings_get_not_mem _ _ _ _ _ h hrest, dget_dset_self]
    · rw [if_neg ha] at hv
      cases hdd : dget d ((dget a tbl).getD []) with
      | none => rw [hdd] at h; cases h
      | some u =>
        rw [hdd] at h
        rw [ih _ hnd.2 h hv, dget_dset_ne _ _ _ _ (fun he => ha he.symm)]

theorem delPostings_ok_of (d : Nat) (m : TokenCounter)
    (tbl : List (String × Postings)) (hnd : NodupKeys m)
    (hall : ∀ t v, dget t m = some v →
      ∃ pl, dget t tbl = some pl ∧ ∃ w, dget d pl = some w) :
    ∃ tbl', delPostings d m tbl = Except.ok tbl' := by
  induction m generalizing tbl with
  | nil => exact ⟨tbl, rfl⟩
  | cons e rest ih =>
    obtain ⟨a, w⟩ := e
    unfold NodupKeys at hnd
    simp only [List.map_cons, List.nodup_cons] at hnd
    rcases hall a w (by rw [dget_cons, if_pos rfl]) with ⟨pl, hpl, u, hu⟩
    have hall' : ∀ t v, dget t rest = some v →
        ∃ pl', dget t (dset a (ddel d ((dget a tbl).getD [])) tbl) = some pl' ∧
          ∃ w', dget d pl' = some w' := by
      intro t v hv
      have hat : a ≠ t := by
        intro he
        subst he
        exact hnd.1 (List.mem_map.mpr ⟨(a, v), dget_mem hv, rfl⟩)
      rcases hall t v (by rw [dget_cons, if_neg hat]; exact hv) with ⟨pl', hpl', u', hu'⟩
      exact ⟨pl', by rw [dget_dset_ne _ _ _ _ (fun he => hat he.symm)]; exact hpl', u', hu'⟩
    rcases ih _ hnd.2 hall' with ⟨tbl', htbl'⟩
    refine ⟨tbl', ?_⟩
    simp only [delPostings, hpl, Option.getD_some, hu]
    simpa [hpl] using htbl'

theorem writeDoc_keepDocs (p : String) (d : Nat) (fd : FreqsDict) (s : InvIndex) :
    (writeDoc p d fd s).keepDocs = s.keepDocs := by
  cases hk : s.keepDocs <;> simp [writeDoc, hk]

theorem writeDoc_docs2ids (p : String) (d : Nat) (fd : FreqsDict) (s : InvIndex) :
    (writeDoc p d fd s).docs2ids = s.docs2ids := by
  cases hk : s.keepDocs <;> simp [writeDoc, hk]

theorem writeDoc_ids2docs (p : String) (d : Nat) (fd : FreqsDict) (s : InvIndex) :
    (writeDoc p d fd s).ids2docs = dset d (some p) s.ids2docs := by
  cases hk : s.keepDocs <;> simp [writeDoc, hk]

theorem writeDoc_table (p : String) (d : Nat) (fd : FreqsDict) (s : InvIndex)
    (f : Field) :
    (writeDoc p d fd s).table f = addPostings d (fd.get f) (s.table f) := by
  cases hk : s.keepDocs <;> cases f <;>
    simp [writeDoc, hk, InvIndex.table, FreqsDict.get]

theorem writeDoc_docFreqs (p : String) (d : Nat) (fd : FreqsDict) (s : InvIndex)
    (f : Field) :
    (writeDoc p d fd s).docFreqs f =
      if s.keepDocs then dset d (fd.get f) (s.docFreqs f) else s.docFreqs f := by
  cases hk : s.keepDocs <;> cases f <;>
    simp [writeDoc, hk, InvIndex.docFreqs, FreqsDict.get]

theorem writeDoc_get_table (p : String) (d : Nat) (fd : FreqsDict) (s : InvIndex)
    (f : Field) (t : String) (hnd : NodupKeys (fd.get f)) :
    dget t ((writeDoc p d fd s).table f) =
      match dget t (fd.get f) with
      | some v => some (dset d v ((dget t (s.table f)).getD []))
      | none => dget t (s.table f) := by
  rw [writeDoc_table]
  cases hv : dget t (fd.get f) with
  | none => simp [addPostings_get_not_mem _ _ _ _ hv]
  | some v => simp [addPostings_get_mem _ _ _ _ _ hnd hv]

theorem wfFreqs_get {fd : FreqsDict} (hfd : WfFreqs fd) (f : Field) :
    NodupKeys (fd.get f) := by
  cases f
  · exact hfd.1
  · exact hfd.2

theorem wf_clear (kd : Bool) : Wf (clearIndex kd) := by
  constructor
  · intro p d h
    simp [clearIndex] at h
  · intro p q d h
    simp [clearIndex] at h
  · intro f t pl d v h
    cases f <;> simp [clearIndex, InvIndex.table] at h
  · intro f t pl h
    cases f <;> simp [clearIndex, InvIndex.table] at h
  · intro _ f d m h
    cases f <;> simp [clearIndex, InvIndex.docFreqs] at h
  · intro _ f t pl d v h
    cases f <;> simp [clearIndex, InvIndex.table] at h
  · intro _ f d m t v h
    cases f <;> simp [clearIndex, InvIndex.docFreqs] at h
  · intro _ p d h
    simp [clearIndex] at h

theorem wf_writeDoc (p : String) (d : Nat) (fd : FreqsDict) (s : InvIndex)
    (h1 : ∀ q e, dget q s.docs2ids = some e → e < s.docs2ids.length)
    (h2 : ∀ q r e, dget q s.docs2ids = some e → dget r s.docs2ids = some e → q = r)
    (h3 : dget p s.docs2ids = some d)
    (h4 : ∀ f t pl v, dget t (s.table f) = some pl → dget d pl = some v → False)
    (h5 : ∀ f t pl e v, dget t (s.table f) = some pl → dget e pl = some v →
      ∃ q, dget e s.ids2docs = some (some q) ∧ dget q s.docs2ids = some e)
    (h6 : ∀ f t pl, dget t (s.table f) = some pl → NodupKeys pl)
    (h7 : s.keepDocs = true → ∀ f e m, dget e (s.docFreqs f) = some m → NodupKeys m)
    (h8 : s.keepDocs = true → ∀ f t pl e v, dget t (s.table f) = some pl →
      dget e pl = some v → ∃ m, dget e (s.docFreqs f) = some m ∧ dget t m = some v)
    (h9 : s.keepDocs = true → ∀ f e m t v, dget e (s.docFreqs f) = some m →
      dget t m = some v → (∃ q, dget e s.ids2docs = some (some q)) →
      ∃ pl, dget t (s.table f) = some pl ∧ dget e pl = some v)
    (h10 : s.keepDocs = true → ∀ q e, dget q s.docs2ids = some e → e ≠ d →
      ∀ f, ∃ m, dget e (s.docFreqs f) = some m)
    (hfd : WfFreqs fd) :
    Wf (writeDoc p d fd s) := by
  have htab : ∀ f t, dget t ((writeDoc p d fd s).table f) =
      match dget t (fd.get f) with
      | some v => some (dset d v ((dget t (s.table f)).getD []))
      | none => dget t (s.table f) :=
    fun f t => writeDoc_get_table p d fd s f t (wfFreqs_get hfd f)
  constructor
  · rw [writeDoc_docs2ids]
    exact h1
  · rw [writeDoc_docs2ids]
    exact h2
  · -- postingLive
    intro f t pl e v hpl hev
    rw [writeDoc_ids2docs, writeDoc_docs2ids]
    rw [htab f t] at hpl
    by_cases hed : e = d
    · subst hed
      exact ⟨p, by rw [dget_dset_self], h3⟩
    · have hold : ∃ pl1, dget t (s.table f) = some pl1 ∧ dget e pl1 = some v := by
        cases hv : dget t (fd.get f) with
        | some w =>
          rw [hv] at hpl
          injection hpl with hpl
          subst hpl
          rw [dget_dset_ne _ _ _ _ hed] at hev
          cases hpl0 : dget t (s.table f) with
          | none => rw [hpl0] at hev; simp at hev
          | some pl1 => rw [hpl0] at hev; exact ⟨pl1, rfl, by simpa using hev⟩
        | none =>
          rw [hv] at hpl
          exact ⟨pl, hpl, hev⟩
      rcases hold with ⟨pl1, hpl1, hev1⟩
      rcases h5 f t pl1 e v hpl1 hev1 with ⟨q, hq1, hq2⟩
      exact ⟨q, by rw [dget_dset_ne _ _ _ _ hed]; exact hq1, hq2⟩
  · -- plNodup
    intro f t pl hpl
    rw [htab f t] at hpl
    cases hv : dget t (fd.get f) with
    | some w =>
      rw [hv] at hpl
      injection hpl with hpl
      subst hpl
      apply nodupKeys_dset
      cases hpl0 : dget t (s.table f) with
      | none => simp [NodupKeys]
      | some pl1 => simpa using h6 f t pl1 hpl0
    | none =>
      rw [hv] at hpl
      exact h6 f t pl hpl
  · -- dfNodup
    intro hk f e m hm
    rw [writeDoc_keepDocs] at hk
    rw [writeDoc_docFreqs, if_pos hk] at hm
    by_cases hed : e = d
    · subst hed
      rw [dget_dset_self] at hm
      injection hm with hm
      subst hm
      exact wfFreqs_get hfd f
    · rw [dget_dset_ne _ _ _ _ hed] at hm
      exact h7 hk f e m hm
  · -- tableSubDF
    intro hk f t pl e v hpl hev
    rw [writeDoc_keepDocs] at hk
    rw [writeDoc_docFreqs, if_pos hk]
    rw [htab f t] at hpl
    by_cases hed : e = d
    · subst hed
      cases hv : dget t (fd.get f) with
      | some w =>
        rw [hv] at hpl
        injection hpl with hpl
        subst hpl
        rw [dget_dset_self] at hev
        injection hev with hev
        subst hev
        exact ⟨fd.get f, by rw [dget_dset_self], hv⟩
      | none =>
        rw [hv] at hpl
        exact (h4 f t pl v hpl hev).elim
    · have hold : ∃ pl1, dget t (s.table f) = some pl1 ∧ dget e pl1 = some v := by
        cases hv : dget t (fd.get f) with
        | some w =>
          rw [hv] at hpl
          injection hpl with hpl
          subst hpl
          rw [dget_dset_ne _ _ _ _ hed] at hev
          cases hpl0 : dget t (s.table f) with
          | none => rw [hpl0] at hev; simp at hev
          | some pl1 => rw [hpl0] at hev; exact ⟨pl1, rfl, by simpa using hev⟩
        | none =>
          rw [hv] at hpl
          exact ⟨pl, hpl, hev⟩
      rcases hold with ⟨pl1, hpl1, hev1⟩
      rcases h8 hk f t pl1 e v hpl1 hev1 with ⟨m, hm, htm⟩
      exact ⟨m, by rw [dget_dset_ne _ _ _ _ hed]; exact hm, htm⟩
  · -- dfLiveSub
    intro hk f e m t v hm htv _hlive
    rw [writeDoc_keepDocs] at hk
    rw [writeDoc_docFreqs, if_pos hk] at hm
    rw [htab f t]
    by_cases hed : e = d
    · subst hed
      rw [dget_dset_self] at hm
      injection hm with hm
      subst hm
      rw [htv]
      exact ⟨_, rfl, by rw [dget_dset_self]⟩
    · rw [dget_dset_ne _ _ _ _ hed] at hm
      have hlive : ∃ q, dget e s.ids2docs = some (some q) := by
        rcases _hlive with ⟨q, hq⟩
        rw [writeDoc_ids2docs, dget_dset_ne _ _ _ _ hed] at hq
        exact ⟨q, hq⟩
      rcases h9 hk f e m t v hm htv hlive with ⟨pl1, hpl1, hev1⟩
      cases hv : dget t (fd.get f) with
      | some w =>
        rw [hpl1]
        exact ⟨_, rfl, by
          simp only [Option.getD_some]
          rw [dget_dset_ne _ _ _ _ hed]
          exact hev1⟩
      | none =>
        rw [hpl1]
        exact ⟨pl1, rfl, hev1⟩
  · -- allocDF
    intro hk q e hq f
    rw [writeDoc_keepDocs] at hk
    rw [writeDoc_docs2ids] at hq
    rw [writeDoc_docFreqs, if_pos hk]
    by_cases hed : e = d
    · subst hed
      exact ⟨fd.get f, by rw [dget_dset_self]⟩
    · rcases h10 hk q e hq hed f with ⟨m, hm⟩
      exact ⟨m, by rw [dget_dset_ne _ _ _ _ hed]; exact hm⟩

theorem popPostings_get (d : Nat) (tbl : List (String × Postings)) (t : String) :
    dget t (popPostings d tbl) = (dget t tbl).map (ddel d) := by
  induction tbl with
  | nil => simp [popPostings]
  | cons e rest ih =>
    obtain ⟨a, pl⟩ := e
    by_cases ha : a = t
    · subst ha
      simp [popPostings]
    · simp only [popPostings, List.map_cons] at ih ⊢
      rw [dget_cons, dget_cons, if_neg ha, if_neg ha]
      exact ih

theorem wf_add_document_freqs {p : String} {fd : FreqsDict} {s : InvIndex}
    {b : Bool} {s' : InvIndex} (hw : Wf s) (hfd : WfFreqs fd)
    (h : add_document_freqs p fd s = Except.ok (b, s')) : Wf s' := by
  cases hq : dget p s.docs2ids with
  | none =>
    simp only [add_document_freqs, hq, Except.ok.injEq, Prod.mk.injEq] at h
    obtain ⟨hb, hs⟩ := h
    subst hs
    have htab0 : ∀ f, InvIndex.table
        { s with docs2ids := dset p s.docs2ids.length s.docs2ids } f = s.table f := by
      intro f
      cases f <;> rfl
    have hdf0 : ∀ f, InvIndex.docFreqs
        { s with docs2ids := dset p s.docs2ids.length s.docs2ids } f = s.docFreqs f := by
      intro f
      cases f <;> rfl
    apply wf_writeDoc
    · intro q e hqe
      simp only at hqe
      rw [length_dset_of_not_mem _ _ _ hq]
      by_cases hqp : q = p
      · subst hqp
        rw [dget_dset_self] at hqe
        injection hqe with hqe
        omega
      · rw [dget_dset_ne _ _ _ _ hqp] at hqe
        exact Nat.lt_succ_of_lt (hw.idsSmall q e hqe)
    · intro q r e hqe hre
      simp only at hqe hre
      by_cases hqp : q = p <;> by_cases hrp : r = p
      · rw [hqp, hrp]
      · subst hqp
        rw [dget_dset_self] at hqe
        injection hqe with hqe
        rw [dget_dset_ne _ _ _ _ hrp] at hre
        have := hw.idsSmall r e hre
        omega
      · subst hrp
        rw [dget_dset_self] at hre
        injection hre with hre
        rw [dget_dset_ne _ _ _ _ hqp] at hqe
        have := hw.idsSmall q e hqe
        omega
      · rw [dget_dset_ne _ _ _ _ hqp] at hqe
        rw [dget_dset_ne _ _ _ _ hrp] at hre
        exact hw.idsInj q r e hqe hre
    · simp only
      rw [dget_dset_self]
    · intro f t pl v hpl hdv
      rw [htab0 f] at hpl
      rcases hw.postingLive f t pl _ v hpl hdv with ⟨r, _, hr2⟩
      exact absurd (hw.idsSmall _ _ hr2) (lt_irrefl _)
    · intro f t pl e v hpl hev
      rw [htab0 f] at hpl
      rcases hw.postingLive f t pl e v hpl hev with ⟨r, hr1, hr2⟩
      refine ⟨r, hr1, ?_⟩
      simp only
      have hrp : r ≠ p := by
        intro he
        subst he
        rw [hq] at hr2
        cases hr2
      rw [dget_dset_ne _ _ _ _ hrp]
      exact hr2
    · intro f t pl hpl
      rw [htab0 f] at hpl
      exact hw.plNodup f t pl hpl
    · intro hk f e m hm
      rw [hdf0 f] at hm
      exact hw.dfNodup hk f e m hm
    · intro hk f t pl e v hpl hev
      rw [htab0 f] at hpl
      rw [hdf0 f]
      exact hw.tableSubDF hk f t pl e v hpl hev
    · intro hk f e m t v hm htv hlive
      rw [hdf0 f] at hm
      rw [htab0 f]
      exact hw.dfLiveSub hk f e m t v hm htv hlive
    · intro hk q e hqe hne f
      simp only at hqe
      rw [hdf0 f]
      by_cases hqp : q = p
      · subst hqp
        rw [dget_dset_self] at hqe
        injection hqe with hqe
        exact absurd hqe.symm hne
      · rw [dget_dset_ne _ _ _ _ hqp] at hqe
        exact hw.allocDF hk q e hqe f
    · exact hfd
  | some d =>
    cases hi : dget d s.ids2docs with
    | none =>
      simp only [add_document_freqs, hq, hi] at h
      exact (Except.noConfusion h)
    | some op =>
      cases op with
      | some r =>
        simp only [add_document_freqs, hq, hi, Except.ok.injEq, Prod.mk.injEq] at h
        obtain ⟨hb, hs⟩ := h
        subst hs
        exact hw
      | none =>
        simp only [add_document_freqs, hq, hi, Except.ok.injEq, Prod.mk.injEq] at h
        obtain ⟨hb, hs⟩ := h
        subst hs
        apply wf_writeDoc
        · exact hw.idsSmall
        · exact hw.idsInj
        · exact hq
        · intro f t pl v hpl hdv
          rcases hw.postingLive f t pl d v hpl hdv with ⟨r, hr1, _⟩
          rw [hi] at hr1
          injection hr1 with hr1
          cases hr1
        · exact hw.postingLive
        · exact hw.plNodup
        · exact hw.dfNodup
        · exact hw.tableSubDF
        · exact hw.dfLiveSub
        · intro hk q e hqe _ f
          exact hw.allocDF hk q e hqe f
        · exact hfd

theorem delPostings_purge (d : Nat) (m : TokenCounter)
    (tbl tbl' : List (String × Postings)) (hndm : NodupKeys m)
    (hpln : ∀ t pl, dget t tbl = some pl → NodupKeys pl)
    (hsub : ∀ t pl v, dget t tbl = some pl → dget d pl = some v →
      ∃ w, dget t m = some w)
    (h : delPostings d m tbl = Except.ok tbl') :
    ∀ t pl v, dget t tbl' = some pl → dget d pl = some v → False := by
  intro t pl v hpl hdv
  cases hv : dget t m with
  | some w =>
    rw [delPostings_get_mem d m tbl tbl' t w hndm h hv] at hpl
    injection hpl with hpl
    subst hpl
    have hnone : dget d (ddel d ((dget t tbl).getD [])) = none := by
      apply dget_ddel_self
      cases hpl0 : dget t tbl with
      | none => simp [NodupKeys]
      | some pl1 => simpa using hpln t pl1 hpl0
    rw [hnone] at hdv
    cases hdv
  | none =>
    rw [delPostings_get_not_mem d m tbl tbl' t h hv] at hpl
    rcases hsub t pl v hpl hdv with ⟨w, hw⟩
    rw [hv] at hw
    cases hw

theorem delPostings_preserve (d : Nat) (m : TokenCounter)
    (tbl tbl' : List (String × Postings)) (hndm : NodupKeys m)
    (h : delPostings d m tbl = Except.ok tbl') :
    ∀ t pl e v, e ≠ d → dget t tbl = some pl → dget e pl = some v →
      ∃ pl', dget t tbl' = some pl' ∧ dget e pl' = some v := by
  intro t pl e v hne hpl hev
  cases hv : dget t m with
  | some w =>
    refine ⟨ddel d ((dget t tbl).getD []),
      delPostings_get_mem d m tbl tbl' t w hndm h hv, ?_⟩
    rw [hpl]
    simp only [Option.getD_some]
    rw [dget_ddel_ne _ _ _ hne]
    exact hev
  | none =>
    exact ⟨pl, by rw [delPostings_get_not_mem d m tbl tbl' t h hv]; exact hpl, hev⟩

theorem delPostings_preserve_bwd (d : Nat) (m : TokenCounter)
    (tbl tbl' : List (String × Postings)) (hndm : NodupKeys m)
    (h : delPostings d m tbl = Except.ok tbl') :
    ∀ t pl' e v, e ≠ d → dget t tbl' = some pl' → dget e pl' = some v →
      ∃ pl, dget t tbl = some pl ∧ dget e pl = some v := by
  intro t pl' e v hne hpl' hev
  cases hv : dget t m with
  | some w =>
    rw [delPostings_get_mem d m tbl tbl' t w hndm h hv] at hpl'
    injection hpl' with hpl'
    subst hpl'
    rw [dget_ddel_ne _ _ _ hne] at hev
    cases hpl0 : dget t tbl with
    | none =>
      rw [hpl0] at hev
      simp at hev
    | some pl1 =>
      rw [hpl0] at hev
      exact ⟨pl1, rfl, by simpa using hev⟩
  | none =>
    rw [delPostings_get_not_mem d m tbl tbl' t h hv] at hpl'
    exact ⟨pl', hpl', hev⟩

theorem delPostings_nodup (d : Nat) (m : TokenCounter)
    (tbl tbl' : List (String × Postings)) (hndm : NodupKeys m)
    (hpln : ∀ t pl, dget t tbl = some pl → NodupKeys pl)
    (h : delPostings d m tbl = Except.ok tbl') :
    ∀ t pl', dget t tbl' = some pl' → NodupKeys pl' := by
  intro t pl' hpl'
  cases hv : dget t m with
  | some w =>
    rw [delPostings_get_mem d m tbl tbl' t w hndm h hv] at hpl'
    injection hpl' with hpl'
    subst hpl'
    apply nodupKeys_ddel
    cases hpl0 : dget t tbl with
    | none => simp [NodupKeys]
    | some pl1 => simpa using hpln t pl1 hpl0
  | none =>
    rw [delPostings_get_not_mem d m tbl tbl' t h hv] at hpl'
    exact hpln t pl' hpl'

theorem wf_remove_document {p : String} {s s' : InvIndex}
    (hw : Wf s) (h : remove_document p s = Except.ok s') : Wf s' := by
  cases hq : dget p s.docs2ids with
  | none =>
    simp only [remove_document, hq] at h
    exact (Except.noConfusion h)
  | some d =>
    cases hk : s.keepDocs with
    | false =>
      simp only [remove_document, hq, hk, Bool.false_eq_true, if_false,
        Except.ok.injEq] at h
      subst h
      constructor
      · exact hw.idsSmall
      · exact hw.idsInj
      · intro f t pl e v hpl hev
        have hpl2 : (dget t (s.table f)).map (ddel d) = some pl := by
          cases f
          · simpa [InvIndex.table, popPostings_get] using hpl
          · simpa [InvIndex.table, popPostings_get] using hpl
        rcases Option.map_eq_some'.mp hpl2 with ⟨pl0, hpl0, hplE⟩
        subst hplE
        by_cases hed : e = d
        · subst hed
          rw [dget_ddel_self _ _ (hw.plNodup f t pl0 hpl0)] at hev
          cases hev
        · rw [dget_ddel_ne _ _ _ hed] at hev
          rcases hw.postingLive f t pl0 e v hpl0 hev with ⟨q, hq1, hq2⟩
          refine ⟨q, ?_, hq2⟩
          simp only
          rw [dget_dset_ne _ _ _ _ hed]
          exact hq1
      · intro f t pl hpl
        have hpl2 : (dget t (s.table f)).map (ddel d) = some pl := by
          cases f
          · simpa [InvIndex.table, popPostings_get] using hpl
          · simpa [InvIndex.table, popPostings_get] using hpl
        rcases Option.map_eq_some'.mp hpl2 with ⟨pl0, hpl0, hplE⟩
        subst hplE
        exact nodupKeys_ddel _ _ (hw.plNodup f t pl0 hpl0)
      · intro hkk
        exact Bool.noConfusion hkk
      · intro hkk
        exact Bool.noConfusion hkk
      · intro hkk
        exact Bool.noConfusion hkk
      · intro hkk
        exact Bool.noConfusion hkk
    | true =>
      cases hmc : dget d s.docFreqsCode with
      | none =>
        simp only [remove_document, hq, hk, if_true, hmc] at h
        exact (Except.noConfusion h)
      | some mc =>
        cases hdc : delPostings d mc s.tableCode with
        | error e =>
          simp only [remove_document, hq, hk, if_true, hmc, hdc] at h
          exact (Except.noConfusion h)
        | ok tc =>
          cases hmt : dget d s.docFreqsText with
          | none =>
            simp only [remove_document, hq, hk, if_true, hmc, hdc, hmt] at h
            exact (Except.noConfusion h)
          | some mt =>
            cases hdt : delPostings d mt s.tableText with
            | error e =>
              simp only [remove_document, hq, hk, if_true, hmc, hdc, hmt, hdt] at h
              exact (Except.noConfusion h)
            | ok tt =>
              simp only [remove_document, hq, hk, if_true, hmc, hdc, hmt, hdt,
                Except.ok.injEq] at h
              subst h
              have hndmc : NodupKeys mc := hw.dfNodup hk Field.code d mc hmc
              have hndmt : NodupKeys mt := hw.dfNodup hk Field.text d mt hmt
              have hsubC : ∀ t pl v, dget t s.tableCode = some pl →
                  dget d pl = some v → ∃ w, dget t mc = some w := by
                intro t pl v hpl hdv
                rcases hw.tableSubDF hk Field.code t pl d v hpl hdv with ⟨m, hm, htm⟩
                have hmm : some m = some mc := hm.symm.trans hmc
                injection hmm with hmm
                subst hmm
                exact ⟨v, htm⟩
              have hsubT : ∀ t pl v, dget t s.tableText = some pl →
                  dget d pl = some v → ∃ w, dget t mt = some w := by
                intro t pl v hpl hdv
                rcases hw.tableSubDF hk Field.text t pl d v hpl hdv with ⟨m, hm, htm⟩
                have hmm : some m = some mt := hm.symm.trans hmt
                injection hmm with hmm
                subst hmm
                exact ⟨v, htm⟩
              have hplnC : ∀ t pl, dget t s.tableCode = some pl → NodupKeys pl :=
                fun t pl hpl => hw.plNodup Field.code t pl hpl
              have hplnT : ∀ t pl, dget t s.tableText = some pl → NodupKeys pl :=
                fun t pl hpl => hw.plNodup Field.text t pl hpl
              have purgeC := delPostings_purge d mc s.tableCode tc hndmc hplnC hsubC hdc
              have purgeT := delPostings_purge d mt s.tableText tt hndmt hplnT hsubT hdt
              have fwdC := delPostings_preserve d mc s.tableCode tc hndmc hdc
              have fwdT := delPostings_preserve d mt s.tableText tt hndmt hdt
              have bwdC := delPostings_preserve_bwd d mc s.tableCode tc hndmc hdc
              have bwdT := delPostings_preserve_bwd d mt s.tableText tt hndmt hdt
              have nodC := delPostings_nodup d mc s.tableCode tc hndmc hplnC hdc
              have nodT := delPostings_nodup d mt s.tableText tt hndmt hplnT hdt
              constructor
              · exact hw.idsSmall
              · exact hw.idsInj
              · intro f t pl e v hpl hev
                by_cases hed : e = d
                · subst hed
                  cases f
                  · exact (purgeC t pl v hpl hev).elim
                  · exact (purgeT t pl v hpl hev).elim
                · have hold : ∃ pl0, dget t (s.table f) = some pl0 ∧
                      dget e pl0 = some v := by
                    cases f
                    · exact bwdC t pl e v hed hpl hev
                    · exact bwdT t pl e v hed hpl hev
                  rcases hold with ⟨pl0, hpl0, hev0⟩
                  rcases hw.postingLive f t pl0 e v hpl0 hev0 with ⟨q, hq1, hq2⟩
                  refine ⟨q, ?_, hq2⟩
                  simp only
                  rw [dget_dset_ne _ _ _ _ hed]
                  exact hq1
              · intro f t pl hpl
                cases f
                · exact nodC t pl hpl
                · exact nodT t pl hpl
              · intro _ f e m hm
                exact hw.dfNodup hk f e m hm
              · intro _ f t pl e v hpl hev
                by_cases hed : e = d
                · subst hed
                  cases f
                  · exact (purgeC t pl v hpl hev).elim
                  · exact (purgeT t pl v hpl hev).elim
                · have hold : ∃ pl0, dget t (s.table f) = some pl0 ∧
                      dget e pl0 = some v := by
                    cases f
                    · exact bwdC t pl e v hed hpl hev
                    · exact bwdT t pl e v hed hpl hev
                  rcases hold with ⟨pl0, hpl0, hev0⟩
                  exact hw.tableSubDF hk f t pl0 e v hpl0 hev0
              · intro _ f e m t v hm htv hlive
                rcases hlive with ⟨q, hqe⟩
                simp only at hqe
                by_cases hed : e = d
                · subst hed
                  rw [dget_dset_self] at hqe
                  injection hqe with hqe
                  cases hqe
                · rw [dget_dset_ne _ _ _ _ hed] at hqe
                  rcases hw.dfLiveSub hk f e m t v hm htv ⟨q, hqe⟩ with ⟨pl0, hpl0, hev0⟩
                  cases f
                  · exact fwdC t pl0 e v hed hpl0 hev0
                  · exact fwdT t pl0 e v hed hpl0 hev0
              · intro _ q e hqe f
                exact hw.allocDF hk q e hqe f

theorem wf_reachable {s : InvIndex} (h : Reachable s) : Wf s := by
  induction h with
  | empty kd => exact wf_clear kd
  | add p fd hr hfd hok ih => exact wf_add_document_freqs ih hfd hok
  | remove p hr hok ih => exact wf_remove_document ih hok

theorem add_live_spec {p : String} {fd : FreqsDict} {s : InvIndex} {d : Nat}
    {q : String} (hq : dget p s.docs2ids = some d)
    (hi : dget d s.ids2docs = some (some q)) :
    add_document_freqs p fd s = Except.ok (false, s) := by
  simp [add_document_freqs, hq, hi]

theorem add_tomb_spec {p : String} {fd : FreqsDict} {s : InvIndex} {d : Nat}
    (hq : dget p s.docs2ids = some d) (hi : dget d s.ids2docs = some none) :
    add_document_freqs p fd s = Except.ok (true, writeDoc p d fd s) := by
  simp [add_document_freqs, hq, hi]

theorem add_fresh_spec {p : String} {fd : FreqsDict} {s : InvIndex}
    (hq : dget p s.docs2ids = none) :
    add_document_freqs p fd s = Except.ok (true,
      writeDoc p s.docs2ids.length fd
        { s with docs2ids := dset p s.docs2ids.length s.docs2ids }) := by
  simp [add_document_freqs, hq]

theorem add_docs2ids_mono {p : String} {fd : FreqsDict} {s : InvIndex}
    {b : Bool} {s' : InvIndex} (h : add_document_freqs p fd s = Except.ok (b, s')) :
    ∀ q e, dget q s.docs2ids = some e → dget q s'.docs2ids = some e := by
  intro q e hqe
  cases hq : dget p s.docs2ids with
  | none =>
    rw [add_fresh_spec hq] at h
    simp only [Except.ok.injEq, Prod.mk.injEq] at h
    obtain ⟨hb, hs⟩ := h
    subst hs
    rw [writeDoc_docs2ids]
    simp only
    have hqp : q ≠ p := by
      intro he
      subst he
      rw [hq] at hqe
      cases hqe
    rw [dget_dset_ne _ _ _ _ hqp]
    exact hqe
  | some d =>
    cases hi : dget d s.ids2docs with
    | none =>
      simp only [add_document_freqs, hq, hi] at h
      exact (Except.noConfusion h)
    | some op =>
      cases op with
      | some r =>
        rw [add_live_spec hq hi] at h
        simp only [Except.ok.injEq, Prod.mk.injEq] at h
        obtain ⟨hb, hs⟩ := h
        subst hs
        exact hqe
      | none =>
        rw [add_tomb_spec hq hi] at h
        simp only [Except.ok.injEq, Prod.mk.injEq] at h
        obtain ⟨hb, hs⟩ := h
        subst hs
        rw [writeDoc_docs2ids]
        exact hqe

theorem remove_live_spec {s : InvIndex} {p : String} {d : Nat}
    (hw : Wf s) (hp : dget p s.docs2ids = some d)
    (hl : dget d s.ids2docs = some (some p)) :
    ∃ s', remove_document p s = Except.ok s' ∧
      s'.keepDocs = s.keepDocs ∧
      s'.docs2ids = s.docs2ids ∧
      s'.ids2docs = dset d none s.ids2docs ∧
      (∀ f, s'.docFreqs f = s.docFreqs f) ∧
      (∀ f t, dget d (get_docs s' f t) = none) := by
  cases hk : s.keepDocs with
  | false =>
    refine ⟨{ s with ids2docs := dset d none s.ids2docs, tableCode := popPostings d s.tableCode, tableText := popPostings d s.tableText }, ?_, hk, rfl, rfl, fun f => by cases f <;> rfl, ?_⟩
    · simp [remove_document, hp, hk]
    · intro f t
      have hget : get_docs { s with ids2docs := dset d none s.ids2docs, tableCode := popPostings d s.tableCode, tableText := popPostings d s.tableText } f t = ((dget t (s.table f)).map (ddel d)).getD [] := by
        cases f <;> simp [get_docs, InvIndex.table, popPostings_get]
      rw [hget]
      cases hpl : dget t (s.table f) with
      | none => simp
      | some pl =>
        exact dget_ddel_self _ _ (hw.plNodup f t pl hpl)
  | true =>
    rcases hw.allocDF hk p d hp Field.code with ⟨mc, hmc⟩
    rcases hw.allocDF hk p d hp Field.text with ⟨mt, hmt⟩
    have hndmc : NodupKeys mc := hw.dfNodup hk Field.code d mc hmc
    have hndmt : NodupKeys mt := hw.dfNodup hk Field.text d mt hmt
    rcases delPostings_ok_of d mc s.tableCode hndmc (by
      intro t v htv
      rcases hw.dfLiveSub hk Field.code d mc t v hmc htv ⟨p, hl⟩ with ⟨pl, hpl, hev⟩
      exact ⟨pl, hpl, v, hev⟩) with ⟨tc, hdc⟩
    rcases delPostings_ok_of d mt s.tableText hndmt (by
      intro t v htv
      rcases hw.dfLiveSub hk Field.text d mt t v hmt htv ⟨p, hl⟩ with ⟨pl, hpl, hev⟩
      exact ⟨pl, hpl, v, hev⟩) with ⟨tt, hdt⟩
    have hsubC : ∀ t pl v, dget t s.tableCode = some pl →
        dget d pl = some v → ∃ w, dget t mc = some w := by
      intro t pl v hpl hdv
      rcases hw.tableSubDF hk Field.code t pl d v hpl hdv with ⟨m, hm, htm⟩
      have hmm : some m = some mc := hm.symm.trans hmc
      injection hmm with hmm
      subst hmm
      exact ⟨v, htm⟩
    have hsubT : ∀ t pl v, dget t s.tableText = some pl →
        dget d pl = some v → ∃ w, dget t mt = some w := by
      intro t pl v hpl hdv
      rcases hw.tableSubDF hk Field.text t pl d v hpl hdv with ⟨m, hm, htm⟩
      have hmm : some m = some mt := hm.symm.trans hmt
      injection hmm with hmm
      subst hmm
      exact ⟨v, htm⟩
    have hplnC : ∀ t pl, dget t s.tableCode = some pl → NodupKeys pl :=
      fun t pl hpl => hw.plNodup Field.code t pl hpl
    have hplnT : ∀ t pl, dget t s.tableText = some pl → NodupKeys pl :=
      fun t pl hpl => hw.plNodup Field.text t pl hpl
    have purgeC := delPostings_purge d mc s.tableCode tc hndmc hplnC hsubC hdc
    have purgeT := delPostings_purge d mt s.tableText tt hndmt hplnT hsubT hdt
    refine ⟨{ s with ids2docs := dset d none s.ids2docs, tableCode := tc, tableText := tt }, ?_, hk, rfl, rfl, fun f => by cases f <;> rfl, ?_⟩
    · have hmcC : dget d s.docFreqsCode = some mc := hmc
      have hmtC : dget d s.docFreqsText = some mt := hmt
      simp [remove_document, hp, hk, hmcC, hmtC, hdc, hdt]
    · intro f t
      cases f
      · cases hpl : dget t tc with
        | none => simp [get_docs, InvIndex.table, hpl]
        | some pl =>
          simp only [get_docs, InvIndex.table, hpl, Option.getD_some]
          cases hdd : dget d pl with
          | none => rfl
          | some v => exact (purgeC t pl v hpl hdd).elim
      · cases hpl : dget t tt with
        | none => simp [get_docs, InvIndex.table, hpl]
        | some pl =>
          simp only [get_docs, InvIndex.table, hpl, Option.getD_some]
          cases hdd : dget d pl with
          | none => rfl
          | some v => exact (purgeT t pl v hpl hdd).elim

theorem char_toNat_ofNat {n : Nat} (h : n.isValidChar) : (Char.ofNat n).toNat = n := by
  rw [Char.ofNat, dif_pos h]
  rfl

theorem toLower_toUpper_char (c : Char) : c.toUpper.toLower = c.toLower := by
  unfold Char.toUpper Char.toLower
  by_cases h : c.toNat ≥ 97 ∧ c.toNat ≤ 122
  · rw [if_pos h]
    have hvalid : (c.toNat - 32).isValidChar := Or.inl (by omega)
    have htn : (Char.ofNat (c.toNat - 32)).toNat = c.toNat - 32 := char_toNat_ofNat hvalid
    rw [htn]
    have h1 : c.toNat - 32 ≥ 65 ∧ c.toNat - 32 ≤ 90 := by omega
    rw [if_pos h1]
    have h2 : ¬ (c.toNat ≥ 65 ∧ c.toNat ≤ 90) := by omega
    rw [if_neg h2]
    have h3 : c.toNat - 32 + 32 = c.toNat := by omega
    rw [h3, Char.ofNat_toNat]
  · rw [if_neg h]

theorem pyLower_pyUpper (s : String) : pyLower (pyUpper s) = pyLower s := by
  unfold pyLower pyUpper
  congr 1
  show (s.data.map Char.toUpper).map Char.toLower = s.data.map Char.toLower
  rw [List.map_map]
  exact List.map_congr_left fun c _ => toLower_toUpper_char c

theorem delPostings_error_eq (d : Nat) (m : TokenCounter)
    (tbl : List (String × Postings)) (e : PyErr)
    (h : delPostings d m tbl = Except.error e) : e = PyErr.keyError := by
  induction m generalizing tbl with
  | nil => exact (Except.noConfusion h)
  | cons x rest ih =>
    simp only [delPostings] at h
    cases hdd : dget d ((dget x.1 tbl).getD []) with
    | none =>
      rw [hdd] at h
      injection h with h
      exact h.symm
    | some w =>
      rw [hdd] at h
      exact ih _ h

theorem remove_not_invalid {p : String} {s : InvIndex} {d : Nat}
    (hp : dget p s.docs2ids = some d) :
    remove_document p s ≠ Except.error PyErr.invalidDocument := by
  cases hk : s.keepDocs with
  | false =>
    have hres : remove_document p s = Except.ok { s with
        ids2docs := dset d none s.ids2docs,
        tableCode := popPostings d s.tableCode,
        tableText := popPostings d s.tableText } := by
      simp [remove_document, hp, hk]
    rw [hres]
    intro hcontra
    exact Except.noConfusion hcontra
  | true =>
    cases hmc : dget d s.docFreqsCode with
    | none =>
      have hres : remove_document p s = Except.error PyErr.keyError := by
        simp [remove_document, hp, hk, hmc]
      rw [hres]
      intro hcontra
      injection hcontra with hcontra
      exact PyErr.noConfusion hcontra
    | some mc =>
      cases hdc : delPostings d mc s.tableCode with
      | error e =>
        have he : e = PyErr.keyError := delPostings_error_eq _ _ _ _ hdc
        subst he
        have hres : remove_document p s = Except.error PyErr.keyError := by
          simp [remove_document, hp, hk, hmc, hdc]
        rw [hres]
        intro hcontra
        injection hcontra with hcontra
        exact PyErr.noConfusion hcontra
      | ok tc =>
        cases hmt : dget d s.docFreqsText with
        | none =>
          have hres : remove_document p s = Except.error PyErr.keyError := by
            simp [remove_document, hp, hk, hmc, hdc, hmt]
          rw [hres]
          intro hcontra
          injection hcontra with hcontra
          exact PyErr.noConfusion hcontra
        | some mt =>
          cases hdt : delPostings d mt s.tableText with
          | error e =>
            have he : e = PyErr.keyError := delPostings_error_eq _ _ _ _ hdt
            subst he
            have hres : remove_document p s = Except.error PyErr.keyError := by
              simp [remove_document, hp, hk, hmc, hdc, hmt, hdt]
            rw [hres]
            intro hcontra
            injection hcontra with hcontra
            exact PyErr.noConfusion hcontra
          | ok tt =>
            have hres : remove_document p s = Except.ok { s with
                ids2docs := dset d none s.ids2docs,
                tableCode := tc, tableText := tt } := by
              simp [remove_document, hp, hk, hmc, hdc, hmt, hdt]
            rw [hres]
            intro hcontra
            exact Except.noConfusion hcontra

theorem batch_v1_nil (nlpFn : String → List SpacyTok) (c : FieldConfig)
    (freqs : TokenCounter) : preprocess_batch_v1 nlpFn c [] freqs = freqs := by
  unfold preprocess_batch_v1
  cases ht : c.tokenize <;> cases hcs : c.caseSensitive <;> cases hl : c.lemmatize <;>
    simp [counterUpdate]

theorem plaintext_tokenize_oversize (fs : FileSys) (nlpFn : String → List SpacyTok)
    (cfg : Config) (p : String) (hsize : fs.size p > maxfilesize) :
    (PlaintextPlugin fs).tokenize nlpFn cfg p = Except.ok ⟨[], []⟩ := by
  unfold Plugin.tokenize PlaintextPlugin plaintextLex
  simp [if_pos hsize, batch_v1_nil]

theorem foldl_congr_fun {γ δ : Type} (f g : γ → δ → γ) (l : List δ) (init : γ)
    (h : ∀ a b, f a b = g a b) : l.foldl f init = l.foldl g init := by
  induction l generalizing init with
  | nil => rfl
  | cons x xs ih =>
    simp only [List.foldl_cons, h]
    exact ih _

theorem batch_v2_equiv (nlpFn : String → List SpacyTok) (c : FieldConfig)
    (texts : List String) (freqs : TokenCounter) (hnlp : nlpFn "" = []) :
    preprocess_batch_v2 nlpFn c texts freqs =
      texts.foldl (fun fr sx => counterUpdate fr (preprocess_text_v2 nlpFn c sx)) freqs := by
  unfold preprocess_batch_v2
  cases ht : c.tokenize <;> cases hcs : c.caseSensitive <;> cases hl : c.lemmatize <;>
    simp only [ht, hcs, hl, Bool.false_eq_true, Bool.true_eq_false, if_false, if_true] <;>
    (apply foldl_congr_fun
     intro fr sx
     by_cases hs : sx = "")
  all_goals try (subst hs; simp [preprocess_text_v2, hnlp, counterUpdate])
  all_goals simp [preprocess_text_v2, hs, ht, hcs, hl]

/-- C1: for every field, token and path that has been added and then removed
via `remove_document`, `get_docs` returns a mapping not containing the path's
doc id — in both `keep_docs` modes (the removal succeeds on any live path of
a reachable index state) and through both `get_docs` implementations
(`InvertedIndexMemory.get_docs` and the case-folding `InvertedIndex.get_docs`). -/
theorem tombstone_purge {s : InvIndex} {p : String} {d : Nat}
    (hr : Reachable s) (hp : dget p s.docs2ids = some d)
    (hl : dget d s.ids2docs = some (some p)) :
    ∃ s', remove_document p s = Except.ok s' ∧
      (∀ f t, dget d (get_docs s' f t) = none) ∧
      (∀ cfg f t, dget d (get_docs_config cfg s' f t) = none) := by
  rcases remove_live_spec (wf_reachable hr) hp hl with ⟨s', hok, _, _, _, _, hpurge⟩
  exact ⟨s', hok, hpurge, fun cfg f t => hpurge f _⟩

/-- Witness for C1 at a concrete one-document `keep_docs=True` index. -/
theorem tombstone_purge_witness :
    ∃ s', remove_document "a.py" s1ex = Except.ok s' ∧
      (∀ f t, dget 0 (get_docs s' f t) = none) ∧
      (∀ cfg f t, dget 0 (get_docs_config cfg s' f t) = none) :=
  @tombstone_purge s1ex "a.py" 0
    (Reachable.add "a.py" fdX (Reachable.empty true) (by decide) rfl) rfl rfl

/-- C2: adding a fresh path allocates `len(docs_to_ids)` as its id; the id
survives `remove_document` (tombstoning keeps the `docs2ids` entry) and the
re-add reuses it, so all three adds in `add(p); remove(p); add(p)` see the
same id; existing allocations are never changed by these operations, and on
the resulting reachable state no doc id is mapped by two different paths. -/
theorem id_stability {s : InvIndex} {p : String} (fd fd' : FreqsDict)
    (hr : Reachable s) (hfresh : dget p s.docs2ids = none)
    (hfd : WfFreqs fd) (hfd' : WfFreqs fd') :
    ∃ s1 s2 s3,
      add_document_freqs p fd s = Except.ok (true, s1) ∧
      dget p s1.docs2ids = some s.docs2ids.length ∧
      remove_document p s1 = Except.ok s2 ∧
      dget p s2.docs2ids = some s.docs2ids.length ∧
      add_document_freqs p fd' s2 = Except.ok (true, s3) ∧
      dget p s3.docs2ids = some s.docs2ids.length ∧
      (∀ q e, dget q s.docs2ids = some e → dget q s3.docs2ids = some e) ∧
      (∀ q r e, dget q s3.docs2ids = some e → dget r s3.docs2ids = some e → q = r) := by
  have hadd1 := @add_fresh_spec p fd s hfresh
  have hp1 : dget p (writeDoc p s.docs2ids.length fd
      { s with docs2ids := dset p s.docs2ids.length s.docs2ids }).docs2ids
      = some s.docs2ids.length := by
    rw [writeDoc_docs2ids]
    exact dget_dset_self p s.docs2ids.length s.docs2ids
  have hl1 : dget s.docs2ids.length (writeDoc p s.docs2ids.length fd
      { s with docs2ids := dset p s.docs2ids.length s.docs2ids }).ids2docs
      = some (some p) := by
    rw [writeDoc_ids2docs]
    exact dget_dset_self s.docs2ids.length (some p) s.ids2docs
  have hr1 : Reachable (writeDoc p s.docs2ids.length fd
      { s with docs2ids := dset p s.docs2ids.length s.docs2ids }) :=
    Reachable.add p fd hr hfd hadd1
  rcases remove_live_spec (wf_reachable hr1) hp1 hl1 with
    ⟨s2, hok2, hkd2, hd2, hi2, _, _⟩
  have hp2 : dget p s2.docs2ids = some s.docs2ids.length := by
    rw [hd2]
    exact hp1
  have htomb2 : dget s.docs2ids.length s2.ids2docs = some none := by
    rw [hi2]
    exact dget_dset_self s.docs2ids.length none _
  have hadd3 := @add_tomb_spec p fd' s2 s.docs2ids.length hp2 htomb2
  have hp3 : dget p (writeDoc p s.docs2ids.length fd' s2).docs2ids
      = some s.docs2ids.length := by
    rw [writeDoc_docs2ids]
    exact hp2
  have hr3 : Reachable (writeDoc p s.docs2ids.length fd' s2) :=
    Reachable.add p fd' (Reachable.remove p hr1 hok2) hfd' hadd3
  refine ⟨_, s2, _, hadd1, hp1, hok2, hp2, hadd3, hp3, ?_, ?_⟩
  · intro q e hqe
    have h1 := add_docs2ids_mono hadd1 q e hqe
    have h2 : dget q s2.docs2ids = some e := by
      rw [hd2]
      exact h1
    exact add_docs2ids_mono hadd3 q e h2
  · exact (wf_reachable hr3).idsInj

/-- Witness for C2 at the empty `keep_docs=True` index. -/
theorem id_stability_witness :
    ∃ s1 s2 s3,
      add_document_freqs "a.py" fdX (clearIndex true) = Except.ok (true, s1) ∧
      dget "a.py" s1.docs2ids = some (clearIndex true).docs2ids.length ∧
      remove_document "a.py" s1 = Except.ok s2 ∧
      dget "a.py" s2.docs2ids = some (clearIndex true).docs2ids.length ∧
      add_document_freqs "a.py" fdX s2 = Except.ok (true, s3) ∧
      dget "a.py" s3.docs2ids = some (clearIndex true).docs2ids.length ∧
      (∀ q e, dget q (clearIndex true).docs2ids = some e → dget q s3.docs2ids = some e) ∧
      (∀ q r e, dget q s3.docs2ids = some e → dget r s3.docs2ids = some e → q = r) :=
  id_stability fdX fdX (Reachable.empty true) rfl (by decide) (by decide)

/-- C3: the modelled `index` pass returns the triple `(added, removed,
updated)`; after a full pass over files `a`, `b`, `c`, an incremental pass in
which `b`'s mtime changed and `c` disappeared returns `(0, 1, 1)`, tombstones
`c` and keeps `b` under its old id. -/
theorem indexer_pass_counts :
    index_pass anl3 false [("a", 1), ("b", 1), ("c", 1)] (clearIndex true) []
      = Except.ok (inv3ex, mt3ex, 3, 0, 0) ∧
    index_pass anl3 true [("a", 1), ("b", 2)] inv3ex mt3ex
      = Except.ok (inv3ex2, [("a", 1), ("b", 2)], 0, 1, 1) ∧
    dget 2 inv3ex2.ids2docs = some none ∧
    dget "c" (inv3ex2.table Field.code) = some [] ∧
    dget "b" (inv3ex2.table Field.code) = some [(1, 1)] :=
  ⟨rfl, rfl, rfl, rfl, rfl⟩

/-- Counterexample to C4 as stated: in an index whose code field holds `N = 1`
document but two distinct tokens, the token `x` (in `k = 1` document with
`tf = 1`) is scored `1 * log10(2 / 1) ≠ 1 * log10(N / k)`: the code feeds
`len(self.table[field])` — the token count — into the idf, not the document
count. -/
theorem tfidf_doc_count_cex :
    (s4ex.docFreqs Field.code).length = 1 ∧
    (get_docs s4ex Field.code "x").length = 1 ∧
    dget 0 (get_docs s4ex Field.code "x") = some 1 ∧
    get_paths_tfidf s4ex Field.code "x"
      = [(some "a.py", ((1 : Nat) : ℝ) * Real.logb 10 (((2 : Nat) : ℝ) / ((1 : Nat) : ℝ)))] ∧
    ((1 : Nat) : ℝ) * Real.logb 10 (((2 : Nat) : ℝ) / ((1 : Nat) : ℝ))
      ≠ ((1 : Nat) : ℝ) * Real.logb 10 (((1 : Nat) : ℝ) / ((1 : Nat) : ℝ)) := by
  refine ⟨rfl, rfl, rfl, rfl, ?_⟩
  push_cast
  rw [div_one, div_one, one_mul, one_mul, Real.logb_one]
  exact (Real.logb_pos (by norm_num) (by norm_num)).ne'

/-- C4 amended: every posting `(doc_id, tf)` of token `t` in field `f` is
scored `tf * log10(T / k)` where `T = len(table[f])` is the number of
distinct tokens of the field (not the number of documents) and `k` the
number of documents containing `t`. -/
theorem tfidf_token_count_score {s : InvIndex} {f : Field} {t : String}
    {d tf : Nat} (h : dget d (get_docs s f t) = some tf) :
    (pathOf s d, (tf : ℝ) *
        Real.logb 10 ((numTokens s f : ℝ) / ((get_docs s f t).length : ℝ)))
      ∈ get_paths_tfidf s f t := by
  unfold get_paths_tfidf
  exact List.mem_map.mpr ⟨(d, tf), dget_mem h, rfl⟩

/-- Witness for the amended C4 at the concrete index `s4ex`. -/
theorem tfidf_token_count_score_witness :
    (pathOf s4ex 0, ((1 : Nat) : ℝ) *
        Real.logb 10 ((numTokens s4ex Field.code : ℝ) /
          ((get_docs s4ex Field.code "x").length : ℝ)))
      ∈ get_paths_tfidf s4ex Field.code "x" :=
  @tfidf_token_count_score s4ex Field.code "x" 0 1 rfl

/-- Counterexample to C5 as stated: after `add(p); remove(p)` on a
`keep_docs=False` index, a second `remove(p)` does not fail with
`InvalidDocument` — it silently succeeds (the id is retained in `docs2ids`,
so the only `InvalidDocument` raise site is not reached). -/
theorem second_remove_cex :
    add_document_freqs "a.py" fdX (clearIndex false) = Except.ok (true, s1fex) ∧
    remove_document "a.py" s1fex = Except.ok s2fex ∧
    remove_document "a.py" s2fex = Except.ok s2fex ∧
    remove_document "a.py" s2fex ≠ Except.error PyErr.invalidDocument :=
  ⟨rfl, rfl, rfl, by decide⟩

/-- C5 amended: a second `add(p)` on a live path returns false and leaves the
state unchanged; `remove` of a never-added path fails with `InvalidDocument`;
but a second `remove(p)` of an already-removed path never raises
`InvalidDocument`: with `keep_docs=False` it completes silently (with
`keep_docs=True` it either completes or raises a plain `KeyError`). -/
theorem second_ops (fd : FreqsDict) {s : InvIndex} {p q : String} {d : Nat}
    (hr : Reachable s) (hp : dget p s.docs2ids = some d)
    (hl : dget d s.ids2docs = some (some p))
    (hq : dget q s.docs2ids = none) :
    add_document_freqs p fd s = Except.ok (false, s) ∧
    remove_document q s = Except.error PyErr.invalidDocument ∧
    ∃ s', remove_document p s = Except.ok s' ∧
      remove_document p s' ≠ Except.error PyErr.invalidDocument ∧
      (s.keepDocs = false → ∃ s'', remove_document p s' = Except.ok s'') := by
  refine ⟨add_live_spec hp hl, ?_, ?_⟩
  · simp [remove_document, hq]
  · rcases remove_live_spec (wf_reachable hr) hp hl with ⟨s', hok, hkd, hd2, _, _, _⟩
    have hp' : dget p s'.docs2ids = some d := by
      rw [hd2]
      exact hp
    refine ⟨s', hok, remove_not_invalid hp', ?_⟩
    intro hkf
    have hk' : s'.keepDocs = false := by
      rw [hkd, hkf]
    exact ⟨{ s' with ids2docs := dset d none s'.ids2docs, tableCode := popPostings d s'.tableCode, tableText := popPostings d s'.tableText }, by simp [remove_document, hp', hk']⟩

/-- Witness for the amended C5 at the concrete `keep_docs=False` index. -/
theorem second_ops_witness :
    add_document_freqs "a.py" fdX s1fex = Except.ok (false, s1fex) ∧
    remove_document "b.py" s1fex = Except.error PyErr.invalidDocument ∧
    ∃ s', remove_document "a.py" s1fex = Except.ok s' ∧
      remove_document "a.py" s' ≠ Except.error PyErr.invalidDocument ∧
      (s1fex.keepDocs = false → ∃ s'', remove_document "a.py" s' = Except.ok s'') :=
  @second_ops fdX s1fex "a.py" "b.py" 0
    (Reachable.add "a.py" fdX (Reachable.empty false) (by decide) rfl) rfl rfl rfl

/-- Counterexample to C6 as stated: after the sequence `add(a.py); remove(a.py)`
on a `keep_docs=True` index, `doc_freqs["code"][0]["x"] == 2` still holds but
`table["code"]["x"]` no longer contains doc 0 — the reverse inclusion of the
claimed bidirectional invariant fails (removal never deletes the stale
`doc_freqs` entry). -/
theorem keep_docs_sync_cex :
    add_document_freqs "a.py" fdX (clearIndex true) = Except.ok (true, s1ex) ∧
    remove_document "a.py" s1ex = Except.ok s2ex ∧
    s2ex.keepDocs = true ∧
    dget 0 (s2ex.docFreqs Field.code) = some [("x", 2)] ∧
    dget "x" [("x", 2)] = some 2 ∧
    dget "x" (s2ex.table Field.code) = some [] ∧
    dget 0 ([] : Postings) = none :=
  ⟨rfl, rfl, rfl, rfl, rfl, rfl, rfl⟩

/-- C6 amended: on every reachable `keep_docs=True` index state, every
`(field, token, doc_id, freq)` entry of `table` has a matching
`doc_freqs[field][doc_id][token] == freq`; the converse holds for every
`doc_freqs` entry whose `doc_id` is currently live (tombstoned documents keep
a stale `doc_freqs` entry with no postings). -/
theorem keep_docs_sync {s : InvIndex} (hr : Reachable s) (hk : s.keepDocs = true) :
    (∀ f t pl d v, dget t (s.table f) = some pl → dget d pl = some v →
      ∃ m, dget d (s.docFreqs f) = some m ∧ dget t m = some v) ∧
    (∀ f d m t v, dget d (s.docFreqs f) = some m → dget t m = some v →
      (∃ q, dget d s.ids2docs = some (some q)) →
      ∃ pl, dget t (s.table f) = some pl ∧ dget d pl = some v) :=
  ⟨(wf_reachable hr).tableSubDF hk, (wf_reachable hr).dfLiveSub hk⟩

/-- Witness for the amended C6 at the concrete index `s1ex`. -/
theorem keep_docs_sync_witness :
    (∀ f t pl d v, dget t (s1ex.table f) = some pl → dget d pl = some v →
      ∃ m, dget d (s1ex.docFreqs f) = some m ∧ dget t m = some v) ∧
    (∀ f d m t v, dget d (s1ex.docFreqs f) = some m → dget t m = some v →
      (∃ q, dget d s1ex.ids2docs = some (some q)) →
      ∃ pl, dget t (s1ex.table f) = some pl ∧ dget d pl = some v) :=
  keep_docs_sync (Reachable.add "a.py" fdX (Reachable.empty true) (by decide) rfl) rfl

/-- Counterexample to C7 as stated: `InvertedIndexMemory.get_docs` performs a
raw, case-sensitive lookup — with a case-insensitive config (all index tokens
lowercase), `get_docs(f, "foo")` and `get_docs(f, "FOO")` differ; only the
older `InvertedIndex.get_docs` lowercases the token before the lookup. -/
theorem get_docs_case_cex :
    (cfg7.get Field.code).caseSensitive = false ∧
    pyUpper "foo" = "FOO" ∧
    get_docs s7ex Field.code "foo" = [(0, 1)] ∧
    get_docs s7ex Field.code (pyUpper "foo") = [] ∧
    get_docs s7ex Field.code "foo" ≠ get_docs s7ex Field.code (pyUpper "foo") ∧
    get_docs_config cfg7 s7ex Field.code (pyUpper "foo") = [(0, 1)] :=
  ⟨rfl, rfl, rfl, rfl, by decide, rfl⟩

/-- C7 amended: for `InvertedIndex.get_docs` (`utils.py`), when the field's
config is case-insensitive the token is lowercased before lookup, so the
query and its uppercased form return equal mappings. -/
theorem get_docs_case_fold (cfg : Config) (s : InvIndex) (f : Field) (t : String)
    (h : (cfg.get f).caseSensitive = false) :
    get_docs_config cfg s f t = get_docs_config cfg s f (pyUpper t) := by
  unfold get_docs_config
  rw [h]
  simp only [Bool.false_eq_true, if_false]
  rw [pyLower_pyUpper]

/-- Witness for the amended C7 at the concrete index `s7ex`. -/
theorem get_docs_case_fold_witness :
    get_docs_config cfg7 s7ex Field.code "foo"
      = get_docs_config cfg7 s7ex Field.code (pyUpper "foo") :=
  get_docs_case_fold cfg7 s7ex Field.code "foo" rfl

/-- C8: evaluation of the flat-layout `Preprocess.batch` at the repository's
own test input (`test_nlp.py::test_code_batch`): with `tokenize=false` it
counts each whole text as one token, while iterating `Preprocess.text` and
counting — the behaviour its own test expects — splits on spaces; the two
counters differ. The `desktopsearch` revision of `batch` produces the
test's expected counter. -/
theorem batch_split_divergence :
    preprocess_batch_v1 (fun _ => []) (DEFAULT_CONFIG.get Field.code)
      ["def test_text(self):"] [] = [("def test_text(self):", 1)] ∧
    List.foldl (fun fr sx => counterUpdate fr
        (preprocess_text_v1 (fun _ => []) (DEFAULT_CONFIG.get Field.code) sx)) []
      ["def test_text(self):"] = [("def", 1), ("test_text(self):", 1)] ∧
    ([("def test_text(self):", 1)] : TokenCounter) ≠ [("def", 1), ("test_text(self):", 1)] ∧
    preprocess_batch_v2 (fun _ => []) (DEFAULT_CONFIG.get Field.code)
      ["def test_text(self):"] [] = [("def", 1), ("test_text(self):", 1)] :=
  ⟨rfl, rfl, by decide, rfl⟩

/-- C9: the `desktopsearch` revision of `Preprocess.text` returns the empty
term sequence on the empty string for every field configuration, as the spec
and the repository's own tests (`PP_CODES[0] = []`) require; the flat-layout
revision instead returns `[""]` for a non-tokenizing config, because Python's
`"".split(" ")` is `[""]`. -/
theorem empty_input_empty_terms :
    (∀ (nlpFn : String → List SpacyTok) (c : FieldConfig),
      preprocess_text_v2 nlpFn c "" = []) ∧
    preprocess_text_v1 (fun _ => []) (DEFAULT_CONFIG.get Field.code) "" = [""] :=
  ⟨fun nlpFn c => by simp [preprocess_text_v2], rfl⟩

/-- C10: a plaintext file over the size limit raises `ValueError`, which is
registered in the plugin's `exceptions`: `tokenize` still returns one (empty)
counter per configured field, and `add_document` on such a file allocates a
fresh doc id, records the path as live with zero postings, and returns true. -/
theorem skipped_file_added (fs : FileSys) (nlpFn : String → List SpacyTok)
    (cfg : Config) (p : String) (s : InvIndex)
    (hr : Reachable s) (hsize : fs.size p > maxfilesize)
    (hfresh : dget p s.docs2ids = none) :
    (PlaintextPlugin fs).tokenize nlpFn cfg p = Except.ok ⟨[], []⟩ ∧
    ∃ s', add_document (fun q => ((PlaintextPlugin fs).tokenize nlpFn cfg q).toOption) p s
        = Except.ok (true, s') ∧
      dget p s'.docs2ids = some s.docs2ids.length ∧
      dget s.docs2ids.length s'.ids2docs = some (some p) ∧
      (∀ f t, dget s.docs2ids.length (get_docs s' f t) = none) := by
  have htok := plaintext_tokenize_oversize fs nlpFn cfg p hsize
  refine ⟨htok, writeDoc p s.docs2ids.length ⟨[], []⟩
    { s with docs2ids := dset p s.docs2ids.length s.docs2ids }, ?_, ?_, ?_, ?_⟩
  · unfold add_document
    have hbeta : ((fun q => ((PlaintextPlugin fs).tokenize nlpFn cfg q).toOption) p)
        = some (⟨[], []⟩ : FreqsDict) := by
      simp only [htok]
      rfl
    rw [hbeta]
    exact add_fresh_spec hfresh
  · rw [writeDoc_docs2ids]
    exact dget_dset_self p s.docs2ids.length s.docs2ids
  · rw [writeDoc_ids2docs]
    exact dget_dset_self s.docs2ids.length (some p) s.ids2docs
  · intro f t
    have hnil : NodupKeys (FreqsDict.get ⟨[], []⟩ f) := by
      cases f <;> exact List.nodup_nil
    have htab := writeDoc_get_table p s.docs2ids.length ⟨[], []⟩
      { s with docs2ids := dset p s.docs2ids.length s.docs2ids } f t hnil
    have hfdnil : dget t (FreqsDict.get ⟨[], []⟩ f) = none := by
      cases f <;> rfl
    rw [hfdnil] at htab
    have htab0 : InvIndex.table
        { s with docs2ids := dset p s.docs2ids.length s.docs2ids } f = s.table f := by
      cases f <;> rfl
    rw [htab0] at htab
    unfold get_docs
    rw [htab]
    cases hpl : dget t (s.table f) with
    | none => rfl
    | some pl =>
      cases hdd : dget s.docs2ids.length pl with
      | none => exact hdd
      | some v =>
        rcases (wf_reachable hr).postingLive f t pl s.docs2ids.length v hpl hdd with
          ⟨r, _, hr2⟩
        exact absurd ((wf_reachable hr).idsSmall r s.docs2ids.length hr2) (lt_irrefl _)

/-- Witness for C10: a two-megabyte `big.txt` on the empty index. -/
theorem skipped_file_added_witness :
    (PlaintextPlugin fs10).tokenize (fun _ => []) DEFAULT_CONFIG "big.txt"
      = Except.ok ⟨[], []⟩ ∧
    ∃ s', add_document
        (fun q => ((PlaintextPlugin fs10).tokenize (fun _ => []) DEFAULT_CONFIG q).toOption)
        "big.txt" (clearIndex true) = Except.ok (true, s') ∧
      dget "big.txt" s'.docs2ids = some (clearIndex true).docs2ids.length ∧
      dget (clearIndex true).docs2ids.length s'.ids2docs = some (some "big.txt") ∧
      (∀ f t, dget (clearIndex true).docs2ids.length (get_docs s' f t) = none) :=
  skipped_file_added fs10 (fun _ => []) DEFAULT_CONFIG "big.txt" (clearIndex true)
    (Reachable.empty true) (by decide) rfl

end DesktopSearch
